import Mathlib

/-!
# Verification of the Onoro python rules engine (pylib)

Shallow embedding of `src/pylib/onoro.py`, `src/pylib/coord.py` and
`src/pylib/test_eq_under_symm.py`.  Python lists become `List`, Python sets of
coordinates become duplicate-free `List (Int × Int)` (built with `dedup`, the
way the source builds them with set comprehensions), Python `int` becomes
`Int`, and raising an exception becomes `Except PyErr`.  Every error site of
the source gets its own `PyErr` constructor so that distinct exceptions stay
distinguishable.
-/

/-- A lattice coordinate, `coord.py`'s `Coord`: a pair of signed integers with
componentwise addition and subtraction. -/
abbrev Coord : Type := Int × Int

/-- Componentwise addition (`Coord.__add__`). -/
def cadd (a b : Coord) : Coord := (a.1 + b.1, a.2 + b.2)

/-- Componentwise subtraction (`Coord.__sub__`). -/
def csub (a b : Coord) : Coord := (a.1 - b.1, a.2 - b.2)

/-- Componentwise negation (used to walk a direction backwards). -/
def cneg (a : Coord) : Coord := (-a.1, -a.2)

/-- Integer scalar multiple of a coordinate, used to express "the cell `t`
steps along direction `d`". -/
def cmul (t : Int) (d : Coord) : Coord := (t * d.1, t * d.2)

/-- `coord.py`'s `coord_neighbors`: the fixed 6-neighbor tuple
`(+1,0), (+1,+1), (0,+1), (-1,0), (-1,-1), (0,-1)`. -/
def coord_neighbors (pawn : Coord) : List Coord :=
  [ cadd pawn (1, 0),
    cadd pawn (1, 1),
    cadd pawn (0, 1),
    cadd pawn (-1, 0),
    cadd pawn (-1, -1),
    cadd pawn (0, -1) ]

/-- Adjacency on the lattice: `b` is one of the six generated neighbors
of `a`. -/
def Adj (a b : Coord) : Prop := b ∈ coord_neighbors a

instance (a b : Coord) : Decidable (Adj a b) := by
  unfold Adj; exact inferInstance

/-- A pawn of `game_state_pb2.GameState.Pawn`: a coordinate and a color
(`black = true` for black). -/
structure Pawn where
  x : Int
  y : Int
  black : Bool
  deriving DecidableEq, Repr

/-- `coord.py`'s `PawnToCoord`. -/
def Pawn.pos (p : Pawn) : Coord := (p.x, p.y)

/-- `coord.py`'s `CoordToPawn`. -/
def CoordToPawn (c : Coord) (black : Bool) : Pawn := ⟨c.1, c.2, black⟩

/-- The in-memory game state, `onoro.py`'s class `Onoro`: the target pawn
count, the pawn list, and whose turn it is. -/
structure Onoro where
  num_pawns : Int
  pawns : List Pawn
  black_turn : Bool
  deriving DecidableEq, Repr

/-- The external record, `game_state_pb2.GameState`. -/
structure GameState where
  pawns : List Pawn
  black_turn : Bool
  turn_num : Int
  finished : Bool
  deriving DecidableEq, Repr

/-- Exceptions raised by the source, one constructor per raise site.
`typeErrorLenOfInt` models the Python `TypeError` raised by evaluating
`len(self.num_pawns)` (the length of an `int`) while the phase-mismatch
message of `P1Moves`/`P2Moves` is being formatted.
`assertionError` models a failing `assert` statement. -/
inductive PyErr where
  | runtimeFewerBlackThanWhite
  | runtimeTooManyBlack
  | runtimeTooManyPawns
  | runtimeCurrentPlayerWinning
  | runtimeMultiplePawnsAtPos
  | typeErrorLenOfInt
  | assertionError
  | runtimeTurnNumMismatch
  | runtimeWrongPlayerOnTurn
  | runtimeFinishedMismatch
  deriving DecidableEq, Repr

/-- The §7 "ValidationError" kind: color-balance and pawn-count violations
surfaced by `serialize`. -/
def PyErr.isValidation : PyErr → Bool
  | .runtimeFewerBlackThanWhite => true
  | .runtimeTooManyBlack => true
  | .runtimeTooManyPawns => true
  | _ => false

/-- `Onoro._EMPTY`. -/
def EMPTY : Nat := 0
/-- `Onoro._BLACK`. -/
def BLACK : Nat := 1
/-- `Onoro._WHITE`. -/
def WHITE : Nat := 2

/-- The color constant for a pawn, as computed by
`self._BLACK if pawn.black else self._WHITE` in the source. -/
def Pawn.color (p : Pawn) : Nat := if p.black then BLACK else WHITE

/-- `Onoro.PawnAt`, with its defensive duplicate check: the color of the pawn
at `c`, `EMPTY` if none, and an error if several pawns occupy `c`. -/
def Onoro.PawnAt (g : Onoro) (c : Coord) : Except PyErr Nat :=
  match g.pawns.filter (fun p => decide (p.pos = c)) with
  | [] => .ok EMPTY
  | [p] => .ok p.color
  | _ => .error .runtimeMultiplePawnsAtPos

/-- `Onoro.PawnAt` on a duplicate-free board, where the error branch is
unreachable (see `PawnAt_eq_pawnAtP`): the total function used to state and
prove properties of states satisfying the §3 no-duplicate invariant. -/
def Onoro.pawnAtP (g : Onoro) (c : Coord) : Nat :=
  match g.pawns.filter (fun p => decide (p.pos = c)) with
  | [] => EMPTY
  | p :: _ => p.color

/-- The number of same-colored pawns on the ray `q, q+d, q+2d, ...`,
up to `fuel` cells: the `while self.PawnAt(pos) == color` loop of
`Onoro.HasWinner`.  The loop always terminates because each occupied cell on
the ray holds a distinct pawn; `fuel = |pawns|` is always enough
(see `walk_lt_fuel`). -/
def Onoro.walk (g : Onoro) (color : Nat) (q d : Coord) : Nat → Nat
  | 0 => 0
  | fuel + 1 => if g.pawnAtP q = color then g.walk color (cadd q d) d fuel + 1 else 0

/-- `n_in_row` of `Onoro.HasWinner` for one pawn and one direction: 1 for the
pawn itself plus the runs extending forward and backward. -/
def Onoro.nInRow (g : Onoro) (p : Pawn) (d : Coord) : Nat :=
  1 + g.walk p.color (cadd p.pos d) d g.pawns.length
    + g.walk p.color (csub p.pos d) (cneg d) g.pawns.length

/-- The three line directions scanned by `Onoro.HasWinner`. -/
def WIN_DIRS : List Coord := [(1, 0), (1, 1), (0, 1)]

/-- `Onoro._N_IN_ROW_TO_WIN = 4`: whether this pawn triggers the
`n_in_row >= self._N_IN_ROW_TO_WIN` test in some direction. -/
def Onoro.pawnWins (g : Onoro) (p : Pawn) : Bool :=
  WIN_DIRS.any (fun d => decide (4 ≤ g.nInRow p d))

/-- The pawn loop of `Onoro.HasWinner` (with `check_errors=True`): the first
pawn with a 4-in-a-row either raises (current player winning) or returns
true; otherwise false. -/
def Onoro.hasWinnerAux (g : Onoro) : List Pawn → Except PyErr Bool
  | [] => .ok false
  | p :: rest =>
    if g.pawnWins p then
      if p.black == g.black_turn then .error .runtimeCurrentPlayerWinning
      else .ok true
    else g.hasWinnerAux rest

/-- `Onoro.HasWinner(check_errors=True)` on a duplicate-free board. -/
def Onoro.HasWinner (g : Onoro) : Except PyErr Bool :=
  g.hasWinnerAux g.pawns

/-- `Onoro.serialize`: validates color balance and pawn count, then emits a
record with recomputed `turn_num` and `finished`. -/
def Onoro.serialize (g : Onoro) : Except PyErr GameState :=
  let black_pawns := g.pawns.filter (fun p => p.black)
  let white_pawns := g.pawns.filter (fun p => !p.black)
  if black_pawns.length < white_pawns.length then .error .runtimeFewerBlackThanWhite
  else if black_pawns.length > white_pawns.length + 1 then .error .runtimeTooManyBlack
  else if (g.pawns.length : Int) > g.num_pawns then .error .runtimeTooManyPawns
  else
    match g.HasWinner with
    | .error e => .error e
    | .ok w => .ok ⟨g.pawns, g.black_turn, (g.pawns.length : Int) - 1, w⟩

/-- `onoro.deserialize`: checks `turn_num == len(pawns) - 1`, the forced turn
order during placement, and the stored `finished` flag against recomputed win
detection — each only when `check_errors` is set. -/
def deserialize (gs : GameState) (num_pawns : Int) (check_errors : Bool) :
    Except PyErr Onoro :=
  if check_errors ∧ gs.turn_num ≠ (gs.pawns.length : Int) - 1 then
    .error .runtimeTurnNumMismatch
  else if check_errors ∧ gs.turn_num < num_pawns - 1 ∧
      gs.black_turn ≠ (gs.turn_num % 2 == 1) then
    .error .runtimeWrongPlayerOnTurn
  else
    let game : Onoro := ⟨num_pawns, gs.pawns, gs.black_turn⟩
    if check_errors then
      match game.HasWinner with
      | .error e => .error e
      | .ok w => if gs.finished ≠ w then .error .runtimeFinishedMismatch else .ok game
    else .ok game

/-- `Onoro.PlayableSpots`: the unoccupied cells bordering at least two pawns
of `ps`.  The source accumulates, per unoccupied neighbor cell of a pawn, the
number of pawns having it as a neighbor (a dict keyed by cell, so each
qualifying cell appears once); here the dict's key list is
`dedup` of the unoccupied neighbor cells and the count is a `filter` length. -/
def Onoro.PlayableSpots (ps : List Coord) : List Coord :=
  (((ps.flatMap coord_neighbors).filter (fun c => decide (c ∉ ps))).dedup).filter
    (fun c => decide (2 ≤ (ps.filter (fun p => decide (c ∈ coord_neighbors p))).length))

mutual

/-- `Onoro._RemoveAdjacent`: depth-first removal, from `ps`, of everything
reachable from `pawn` through occupied neighbors.  The Python recursion has no
fuel; `fuel ≥ |ps| + 1` always suffices because every nested call happens
after erasing one element (see `remAdjacent_spec`). -/
def remAdjacent : Nat → Coord → List Coord → List Coord
  | 0, _, ps => ps
  | fuel + 1, pawn, ps => remAdjacentGo fuel (coord_neighbors pawn) ps
termination_by fuel _ _ => (fuel, 0)

/-- The `for neighbor in coord_neighbors(pawn)` loop body of
`Onoro._RemoveAdjacent`: each neighbor still present is erased and flooded
from, threading the shrinking set through the loop. -/
def remAdjacentGo : Nat → List Coord → List Coord → List Coord
  | _, [], ps => ps
  | fuel, n :: ns, ps =>
    if n ∈ ps then remAdjacentGo fuel ns (remAdjacent fuel n (ps.erase n))
    else remAdjacentGo fuel ns ps
termination_by fuel ns _ => (fuel, ns.length)

end

/-- `Onoro.Connected`: pop an element (the head, standing for Python's
arbitrary `set.pop`) and check the flood fill from it removes everything
else. -/
def Onoro.Connected : List Coord → Bool
  | [] => true
  | p :: rest => (remAdjacent (rest.length + 1) p rest).isEmpty

/-- `Onoro.TwoNeighborsEach`: every pawn of `ps` has at least two occupied
neighbors.  (The source also computes `minx`/`miny` and never uses them;
that dead code is omitted — it can only matter by raising on an empty set,
and `P2Moves` always passes a non-empty set.) -/
def Onoro.TwoNeighborsEach (ps : List Coord) : Bool :=
  ps.all (fun pawn =>
    decide (2 ≤ ((coord_neighbors pawn).filter (fun nb => decide (nb ∈ ps))).length))

/-- The coordinate set `{PawnToCoord(pawn) for pawn in self.pawns}`. -/
def Onoro.coords (g : Onoro) : List Coord := (g.pawns.map Pawn.pos).dedup

/-- `Onoro.P1Moves`.  On a phase mismatch the source executes
`raise RuntimeError('Not phase 1, %d pawns in play' % (len(self.num_pawns)))`
whose message evaluates `len` of an `int` and therefore actually raises
`TypeError` — modelled by `typeErrorLenOfInt`. -/
def Onoro.P1Moves (g : Onoro) : Except PyErr (List Pawn) :=
  if (g.pawns.length : Int) ≥ g.num_pawns then .error .typeErrorLenOfInt
  else .ok ((Onoro.PlayableSpots g.coords).map (fun c => CoordToPawn c g.black_turn))

/-- The move list yielded by `Onoro.P2Moves` once past its phase check: for
each pawn of the mover's color, every playable spot of the remaining set
other than the pawn's own cell that keeps the result connected with two
neighbors each.  (The two `assert` statements of the source are provably
always true — the pawn's coordinate is in the set it was collected from, and
playable spots are unoccupied — and are omitted.) -/
def Onoro.p2MoveList (g : Onoro) : List (Pawn × Pawn) :=
  g.pawns.flatMap (fun pawn =>
    if pawn.black != g.black_turn then []
    else
      let rem_pawns := g.coords.erase pawn.pos
      (Onoro.PlayableSpots rem_pawns).filterMap (fun c =>
        if c = pawn.pos then none
        else
          let new_pawns := c :: rem_pawns
          if Onoro.Connected new_pawns ∧ Onoro.TwoNeighborsEach new_pawns then
            some (pawn, CoordToPawn c pawn.black)
          else none))

/-- `Onoro.P2Moves`, phase check included (same `len(int)` slip as
`P1Moves`, deferred in Python to the generator's first `next`). -/
def Onoro.P2Moves (g : Onoro) : Except PyErr (List (Pawn × Pawn)) :=
  if (g.pawns.length : Int) ≠ g.num_pawns then .error .typeErrorLenOfInt
  else .ok g.p2MoveList

/-- `Onoro.MakeP1Move`: append the pawn, flip the turn. -/
def Onoro.MakeP1Move (g : Onoro) (move : Pawn) : Onoro :=
  ⟨g.num_pawns, g.pawns ++ [move], !g.black_turn⟩

/-- `Onoro.MakeP2Move`: remove the source pawn, append the destination, flip
the turn. -/
def Onoro.MakeP2Move (g : Onoro) (move : Pawn × Pawn) : Onoro :=
  ⟨g.num_pawns, g.pawns.erase move.1 ++ [move.2], !g.black_turn⟩

/-- A move of either phase, for `Onoro.MakeMove`'s `isinstance` dispatch. -/
inductive Move where
  | place : Pawn → Move
  | reloc : Pawn × Pawn → Move
  deriving DecidableEq, Repr

/-- `Onoro.MakeMove`: dispatches on the pawn count; the `assert isinstance`
fails (Python `AssertionError`) when the move's shape does not match the
phase. -/
def Onoro.MakeMove (g : Onoro) (move : Move) : Except PyErr Onoro :=
  if (g.pawns.length : Int) = g.num_pawns then
    match move with
    | .reloc m => .ok (g.MakeP2Move m)
    | .place _ => .error .assertionError
  else
    match move with
    | .place m => .ok (g.MakeP1Move m)
    | .reloc _ => .error .assertionError

/-- `Onoro.P1Moves` with the state threaded through explicitly, mirroring
each read of `self`; the returned state reflects every write to `self`'s
fields performed by the source (there are none). -/
def Onoro.P1MovesS (g : Onoro) : Except PyErr (List Pawn) × Onoro :=
  if (g.pawns.length : Int) ≥ g.num_pawns then (.error .typeErrorLenOfInt, g)
  else
    let coords := (g.pawns.map Pawn.pos).dedup
    (.ok ((Onoro.PlayableSpots coords).map (fun c => CoordToPawn c g.black_turn)), g)

/-- `Onoro.P2Moves` with the state threaded through explicitly (as
`Onoro.P1MovesS`). -/
def Onoro.P2MovesS (g : Onoro) : Except PyErr (List (Pawn × Pawn)) × Onoro :=
  if (g.pawns.length : Int) ≠ g.num_pawns then (.error .typeErrorLenOfInt, g)
  else (.ok g.p2MoveList, g)

/-- `Onoro.serialize` with the state threaded through explicitly. -/
def Onoro.serializeS (g : Onoro) : Except PyErr GameState × Onoro :=
  (g.serialize, g)

/-- Python's `min(pawn.x for pawn in l)`.  `min` of an empty sequence raises
in Python; all claims about `__eq__`/`__hash__` are restricted to non-empty
boards, so the `[]` branch (junk value `0`) is never relied upon. -/
def minXs (l : List Pawn) : Int :=
  match l with
  | [] => 0
  | p :: r => r.foldl (fun m q => min m q.x) p.x

/-- Python's `min(pawn.y for pawn in l)` (see `minXs`). -/
def minYs (l : List Pawn) : Int :=
  match l with
  | [] => 0
  | p :: r => r.foldl (fun m q => min m q.y) p.y

/-- `Onoro.__eq__`: same `num_pawns`, same `black_turn`, same pawn count, and
every own pawn, retranslated from the own minimum to the other's minimum, is
found among the other's pawns. -/
def Onoro.eq (a b : Onoro) : Bool :=
  (a.num_pawns == b.num_pawns) &&
  (a.black_turn == b.black_turn) &&
  (a.pawns.length == b.pawns.length) &&
  (a.pawns.all (fun p =>
    decide ((⟨p.x - minXs a.pawns + minXs b.pawns,
             p.y - minYs a.pawns + minYs b.pawns, p.black⟩ : Pawn) ∈ b.pawns)))

/-- Stable ascending insertion by key: the element being inserted came
earlier in the original list than everything already inserted, so it is
placed before equal keys — the tie-breaking behavior of Python's stable
`sorted`. -/
def insertByKey (key : Pawn → Int) (p : Pawn) : List Pawn → List Pawn
  | [] => [p]
  | q :: qs => if key q < key p then q :: insertByKey key p qs else p :: q :: qs

/-- Python's stable `sorted(l, key=key)`. -/
def sortByKey (key : Pawn → Int) (l : List Pawn) : List Pawn :=
  l.foldr (insertByKey key) []

/-- The tuple `Onoro.__hash__` feeds to Python's `hash`: the normalized
pawn triples sorted by `(x - minx) + (y - miny) * num_pawns`, the turn flag,
and `num_pawns`.  Python's `hash` is a fixed pure function of this tuple, so
two states get the same hash value whenever their `hashKey`s are equal, and
(for the tuples of ints and bools arising here) different values when they
differ. -/
def Onoro.hashKey (g : Onoro) : List (Int × Int × Bool) × Bool × Int :=
  let offx := minXs g.pawns
  let offy := minYs g.pawns
  let key : Pawn → Int := fun p => (p.x - offx) + (p.y - offy) * g.num_pawns
  ((sortByKey key g.pawns).map (fun p => (p.x - offx, p.y - offy, p.black)),
   g.black_turn, g.num_pawns)

/-- Modelled from the spec: rotation by 60° on a coordinate, the closed-form
linear transform consistent with the 6-neighbor adjacency (§4.5).  The method
`Onoro.rotate_60` is called by `test_eq_under_symm.py` but absent from the
sources; `(x, y) ↦ (x - y, x)` maps the neighbor 6-cycle
`(1,0) → (1,1) → (0,1) → (-1,0) → (-1,-1) → (0,-1) → (1,0)`. -/
def rotate60c (c : Coord) : Coord := (c.1 - c.2, c.1)

/-- Modelled from the spec: the fixed reflection on a coordinate (§4.5),
`(x, y) ↦ (y, x)`, which maps the neighbor set to itself.  The method
`Onoro.refl` is absent from the sources. -/
def reflc (c : Coord) : Coord := (c.2, c.1)

/-- Modelled from the spec: `Onoro.rotate_60` (absent from the sources),
rotating every pawn in place. -/
def Onoro.rotate_60 (g : Onoro) : Onoro :=
  ⟨g.num_pawns, g.pawns.map (fun p => ⟨p.x - p.y, p.x, p.black⟩), g.black_turn⟩

/-- Modelled from the spec: `Onoro.refl` (absent from the sources),
reflecting every pawn in place. -/
def Onoro.refl (g : Onoro) : Onoro :=
  ⟨g.num_pawns, g.pawns.map (fun p => ⟨p.y, p.x, p.black⟩), g.black_turn⟩

/-- Modelled from the spec: `Onoro.invert_colors` (absent from the sources),
swapping the two colors, `black_turn` included (§4.5). -/
def Onoro.invert_colors (g : Onoro) : Onoro :=
  ⟨g.num_pawns, g.pawns.map (fun p => ⟨p.x, p.y, !p.black⟩), !g.black_turn⟩

/-- The `for orientation in range(6): yield g; g.rotate_60()` inner loop of
`test_eq_under_symm.each_symm`: the list of yielded states and the final
mutated state. -/
def rotYields : Nat → Onoro → List Onoro × Onoro
  | 0, g => ([], g)
  | n + 1, g =>
    let r := rotYields n g.rotate_60
    (g :: r.1, r.2)

/-- `test_eq_under_symm.each_symm`: the full list of states yielded by the
generator.  The loop structure of the source is kept: each outer iteration
yields two blocks of 6 rotations with a reflection between them, then
reflects and color-inverts the working copy; the outer loop runs once during
placement and twice on a full board. -/
def each_symm (game : Onoro) : List Onoro :=
  let y1 := rotYields 6 game
  let g1 := y1.2.refl
  let y2 := rotYields 6 g1
  let g2 := y2.2.refl
  let g3 := g2.invert_colors
  if (game.pawns.length : Int) = game.num_pawns then
    let y3 := rotYields 6 g3
    let g4 := y3.2.refl
    let y4 := rotYields 6 g4
    y1.1 ++ y2.1 ++ y3.1 ++ y4.1
  else
    y1.1 ++ y2.1

/-- `test_eq_under_symm.apply_random_symm_ops` as a function of the three
random draws (`random.choice`/`random.randrange` results become explicit
arguments): color inversion is forced off during placement, then the chosen
reflection, rotations and inversion are applied in the source's order. -/
def apply_random_symm_ops (game : Onoro) (color_invert reflected : Bool)
    (orientation : Nat) : Onoro :=
  let ci := if (game.pawns.length : Int) < game.num_pawns then false else color_invert
  let g1 := if reflected then game.refl else game
  let g2 := Onoro.rotate_60^[orientation] g1
  if ci then g2.invert_colors else g2

/-- One step of occupied-to-occupied movement: `v` is occupied and adjacent
to `u`. -/
def StepIn (S : List Coord) (u v : Coord) : Prop := Adj u v ∧ v ∈ S

/-- Reachability from `u` through occupied cells of `S` (every cell after
`u` lies in `S`). -/
def ReachIn (S : List Coord) : Coord → Coord → Prop :=
  Relation.ReflTransGen (StepIn S)

/-- The specification's notion of "a single connected component under the
6-neighbor adjacency": any two occupied cells are joined by a path of
adjacent occupied cells. -/
def SetConnected (l : List Coord) : Prop :=
  ∀ a ∈ l, ∀ b ∈ l, Relation.ReflTransGen (fun u v => u ∈ l ∧ v ∈ l ∧ Adj u v) a b

/-- The specification's "every pawn has at least 2 occupied neighbors". -/
def EveryPawnTwoNeighbors (l : List Coord) : Prop :=
  ∀ c ∈ l, 2 ≤ ((coord_neighbors c).filter (fun nb => decide (nb ∈ l))).length

/-- The specification's "`c` borders at least 2 pawns of `ps`". -/
def BordersAtLeastTwo (ps : List Coord) (c : Coord) : Prop :=
  2 ≤ (ps.filter (fun p => decide (Adj c p))).length

instance (ps : List Coord) (c : Coord) : Decidable (BordersAtLeastTwo ps c) := by
  unfold BordersAtLeastTwo; exact inferInstance

/-- The specification's "the pawn lies on a run of at least 4 consecutive
same-colored pawns along one of the three directions": some window of 4
consecutive cells along `d`, the pawn's own cell among them, all holding the
pawn's color. -/
def Onoro.liesOnWinRun (g : Onoro) (p : Pawn) : Prop :=
  ∃ d ∈ WIN_DIRS, ∃ k : Fin 4, ∀ i : Fin 4,
    g.pawnAtP (cadd p.pos (cmul ((i.val : Int) - (k.val : Int)) d)) = p.color

instance (g : Onoro) (p : Pawn) : Decidable (g.liesOnWinRun p) := by
  unfold Onoro.liesOnWinRun; exact inferInstance

/-- Translation of a whole state by a fixed offset (used to state the
translation-invariance part of the `__eq__` claim). -/
def Onoro.translate (g : Onoro) (v : Coord) : Onoro :=
  ⟨g.num_pawns, g.pawns.map (fun p => ⟨p.x + v.1, p.y + v.2, p.black⟩), g.black_turn⟩

/-- The pawns normalized by the state's own minimum — the common frame in
which the `__eq__` claim compares the two multisets. -/
def Onoro.normPawns (g : Onoro) : List Pawn :=
  g.pawns.map (fun p => ⟨p.x - minXs g.pawns, p.y - minYs g.pawns, p.black⟩)

/-! ## Concrete states used to instantiate and test the claims -/

/-- The starting position of `gen_starting_game` / `init.main`:
`{(1,1,Black), (1,2,White), (2,2,Black)}`, white to move, 6 pawns total. -/
def starting_game : Onoro := ⟨6, [⟨1, 1, true⟩, ⟨1, 2, false⟩, ⟨2, 2, true⟩], false⟩

/-- A board with a straight line of 4 black pawns along `(1,0)` plus 3 white
pawns, white to move. -/
def winBlackWhiteMoves : Onoro :=
  ⟨16, [⟨0, 0, true⟩, ⟨1, 0, true⟩, ⟨2, 0, true⟩, ⟨3, 0, true⟩,
        ⟨0, 5, false⟩, ⟨1, 5, false⟩, ⟨2, 5, false⟩], false⟩

/-- The same line of 4 black pawns, but black to move. -/
def winBlackBlackMoves : Onoro :=
  ⟨16, [⟨0, 0, true⟩, ⟨1, 0, true⟩, ⟨2, 0, true⟩, ⟨3, 0, true⟩,
        ⟨0, 5, false⟩, ⟨1, 5, false⟩, ⟨2, 5, false⟩], true⟩

/-- A record violating both the color-balance invariant (3 black, 0 white)
and the pawn-count invariant (3 pawns, `num_pawns = 2`), with consistent
`turn_num` and `finished`. -/
def unbalancedRecord : GameState :=
  ⟨[⟨0, 0, true⟩, ⟨1, 0, true⟩, ⟨0, 1, true⟩], false, 2, false⟩

/-- A full board (3 pawns, `num_pawns = 3`): calling `P1Moves` on it is a
phase mismatch. -/
def fullState3 : Onoro := ⟨3, [⟨0, 0, true⟩, ⟨1, 0, false⟩, ⟨1, 1, true⟩], true⟩

/-- A placement-phase board (3 pawns, `num_pawns = 4`): calling `P2Moves` on
it is a phase mismatch. -/
def shortState4 : Onoro := ⟨4, [⟨0, 0, true⟩, ⟨1, 0, false⟩, ⟨1, 1, true⟩], true⟩

/-- A full 4-pawn board (a rhombus) used to instantiate the phase-2 claim. -/
def smallFull : Onoro :=
  ⟨4, [⟨0, 0, true⟩, ⟨1, 0, false⟩, ⟨1, 1, true⟩, ⟨0, 1, false⟩], true⟩

/-- A state whose pawn list holds the same pawn twice. -/
def dupPairA : Onoro := ⟨2, [⟨0, 0, true⟩, ⟨0, 0, true⟩], false⟩

/-- A duplicate-free state that `__eq__` nevertheless considers equal to
`dupPairA`. -/
def dupPairB : Onoro := ⟨2, [⟨0, 0, true⟩, ⟨1, 0, true⟩], false⟩

/-- Two pawns whose hash sort keys collide (`(x-minx) + (y-miny)*num_pawns`
is 2 for both), listed in one order... -/
def collideA : Onoro := ⟨2, [⟨2, 0, true⟩, ⟨0, 1, false⟩], false⟩

/-- ...and in the other order: equal states under `__eq__`, but the stable
sort preserves the differing input orders. -/
def collideB : Onoro := ⟨2, [⟨0, 1, false⟩, ⟨2, 0, true⟩], false⟩

/-! ## Lattice lemmas -/

theorem adj_symm {a b : Coord} : Adj a b ↔ Adj b a := by
  simp only [Adj, coord_neighbors, cadd, List.mem_cons, List.not_mem_nil, or_false,
    Prod.ext_iff, Prod.fst, Prod.snd]
  omega

theorem cadd_cmul_step (q d : Coord) (t : Int) :
    cadd (cadd q d) (cmul t d) = cadd q (cmul (t + 1) d) := by
  simp only [cadd, cmul, Prod.mk.injEq]
  constructor <;> ring

theorem cadd_cmul_neg_step (q d : Coord) (t : Int) :
    cadd (csub q d) (cmul t (cneg d)) = cadd q (cmul (-(t + 1)) d) := by
  simp only [cadd, csub, cmul, cneg, Prod.mk.injEq]
  constructor <;> ring

theorem cadd_cmul_zero (q d : Coord) : cadd q (cmul 0 d) = q := by
  simp [cadd, cmul]

theorem cmul_inj_win_dir {d : Coord} (hd : d ∈ WIN_DIRS) {s t : Int} (q : Coord)
    (h : cadd q (cmul s d) = cadd q (cmul t d)) : s = t := by
  simp only [WIN_DIRS, List.mem_cons, List.not_mem_nil, or_false] at hd
  rcases hd with h' | h' | h' <;> subst h' <;>
    simp only [cadd, cmul, Prod.mk.injEq] at h <;> omega

/-! ## `PawnAt` on duplicate-free boards -/

/-- On a duplicate-free board at most one pawn matches any coordinate. -/
theorem filter_pos_le_one (g : Onoro) (hnd : (g.pawns.map Pawn.pos).Nodup) (c : Coord) :
    (g.pawns.filter (fun p => decide (p.pos = c))).length ≤ 1 := by
  set l := g.pawns.filter (fun p => decide (p.pos = c)) with hl
  have hsub : l.Sublist g.pawns := List.filter_sublist _
  have hmapnd : (l.map Pawn.pos).Nodup := List.Nodup.sublist (hsub.map Pawn.pos) hnd
  have hrep : l.map Pawn.pos = List.replicate l.length c := by
    rw [List.eq_replicate_iff]
    refine ⟨by simp, ?_⟩
    intro b hb
    rcases List.mem_map.mp hb with ⟨p, hp, hpc⟩
    have hc := List.of_mem_filter hp
    simp only [decide_eq_true_eq] at hc
    rw [← hpc]; exact hc
  rw [hrep] at hmapnd
  exact (List.nodup_replicate).mp hmapnd

/-- On a duplicate-free board `PawnAt` never raises and agrees with the total
`pawnAtP`: the shallow embedding's license to use `pawnAtP` under the §3
no-duplicate invariant. -/
theorem PawnAt_eq_pawnAtP (g : Onoro) (hnd : (g.pawns.map Pawn.pos).Nodup) (c : Coord) :
    g.PawnAt c = .ok (g.pawnAtP c) := by
  have hlen := filter_pos_le_one g hnd c
  unfold Onoro.PawnAt Onoro.pawnAtP
  rcases h : g.pawns.filter (fun p => decide (p.pos = c)) with _ | ⟨p, _ | ⟨q, t⟩⟩
  · rw [h]
  · rw [h]
  · rw [h] at hlen; simp at hlen

/-- Every pawn of a duplicate-free board is what `pawnAtP` reports at its own
cell. -/
theorem pawnAtP_of_mem (g : Onoro) (hnd : (g.pawns.map Pawn.pos).Nodup) {p : Pawn}
    (hp : p ∈ g.pawns) : g.pawnAtP p.pos = p.color := by
  have hmem : p ∈ g.pawns.filter (fun q => decide (q.pos = p.pos)) :=
    List.mem_filter.mpr ⟨hp, by simp⟩
  unfold Onoro.pawnAtP
  rcases h : g.pawns.filter (fun q => decide (q.pos = p.pos)) with _ | ⟨q, t⟩
  · rw [h] at hmem; simp at hmem
  · have hq : q ∈ g.pawns.filter (fun q => decide (q.pos = p.pos)) := by
      rw [h]; exact List.mem_cons_self q t
    have hqp : q ∈ g.pawns := List.mem_of_mem_filter hq
    have hqpos : q.pos = p.pos := by
      have := List.of_mem_filter hq; simpa using this
    have hqeq : q = p := List.inj_on_of_nodup_map hnd hqp hp hqpos
    rw [h, hqeq]

/-- An occupied report from `pawnAtP` exhibits a pawn of the list. -/
theorem pawnAtP_occupied (g : Onoro) {c : Coord} (h : g.pawnAtP c ≠ EMPTY) :
    ∃ b, (⟨c.1, c.2, b⟩ : Pawn) ∈ g.pawns ∧ (⟨c.1, c.2, b⟩ : Pawn).color = g.pawnAtP c := by
  unfold Onoro.pawnAtP at *
  rcases hf : g.pawns.filter (fun p => decide (p.pos = c)) with _ | ⟨p, t⟩
  · rw [hf] at h; simp at h
  · rw [hf] at h ⊢
    have hp : p ∈ g.pawns.filter (fun p => decide (p.pos = c)) := by
      rw [hf]; exact List.mem_cons_self p t
    have hpm : p ∈ g.pawns := List.mem_of_mem_filter hp
    have hpos : p.pos = c := by have := List.of_mem_filter hp; simpa using this
    refine ⟨p.black, ?_, ?_⟩
    · have : (⟨c.1, c.2, p.black⟩ : Pawn) = p := by
        cases p with
        | mk x y b =>
          simp only [Pawn.pos, Prod.ext_iff] at hpos
          simp [← hpos.1, ← hpos.2]
      rw [this]; exact hpm
    · have : (⟨c.1, c.2, p.black⟩ : Pawn).color = p.color := by
        simp [Pawn.color]
      rw [this]

/-- A colored report from `pawnAtP` is `BLACK` or `WHITE`, never anything
else. -/
theorem pawnAtP_cases (g : Onoro) (c : Coord) :
    g.pawnAtP c = EMPTY ∨ g.pawnAtP c = BLACK ∨ g.pawnAtP c = WHITE := by
  unfold Onoro.pawnAtP
  rcases h : g.pawns.filter (fun p => decide (p.pos = c)) with _ | ⟨p, t⟩
  · rw [h]; exact Or.inl rfl
  · rw [h]
    rcases hb : p.black with _ | _ <;> simp [Pawn.color, hb, BLACK, WHITE]

/-! ## Win detection: the `while` walks versus runs of cells -/

/-- Every cell the walk counted carries the color. -/
theorem walk_sound (g : Onoro) (c : Nat) (d : Coord) :
    ∀ fuel q (j : Nat), j < g.walk c q d fuel →
      g.pawnAtP (cadd q (cmul (j : Int) d)) = c := by
  intro fuel
  induction fuel with
  | zero => intro q j h; simp [Onoro.walk] at h
  | succ f ih =>
    intro q j h
    rw [Onoro.walk] at h
    by_cases hq : g.pawnAtP q = c
    · rw [if_pos hq] at h
      match j with
      | 0 => simpa [cadd_cmul_zero] using hq
      | Nat.succ j' =>
        have hj : j' < g.walk c (cadd q d) d f := by omega
        have hcell := ih (cadd q d) j' hj
        rw [cadd_cmul_step] at hcell
        have hcast : ((j' + 1 : Nat) : Int) = (j' : Int) + 1 := by push_cast; ring
        rw [hcast]; exact hcell
    · rw [if_neg hq] at h; omega

/-- A colored ray of `k ≤ fuel` cells is fully counted by the walk. -/
theorem walk_complete (g : Onoro) (c : Nat) (d : Coord) :
    ∀ fuel q (k : Nat), k ≤ fuel →
      (∀ j : Nat, j < k → g.pawnAtP (cadd q (cmul (j : Int) d)) = c) →
      k ≤ g.walk c q d fuel := by
  intro fuel
  induction fuel with
  | zero => intro q k hk _; omega
  | succ f ih =>
    intro q k hk hcells
    match k with
    | 0 => omega
    | Nat.succ k' =>
      have hq : g.pawnAtP q = c := by
        have := hcells 0 (by omega)
        simpa [cadd_cmul_zero] using this
      rw [Onoro.walk, if_pos hq]
      have : k' ≤ g.walk c (cadd q d) d f := by
        refine ih (cadd q d) k' (by omega) ?_
        intro j hj
        have := hcells (j + 1) (by omega)
        rw [cadd_cmul_step]
        have hcast : ((j + 1 : Nat) : Int) = (j : Int) + 1 := by push_cast; ring
        rw [← hcast]; exact this
      omega

/-- Occupied cells along the scanned directions at distinct steps are
distinct, so each holds a distinct pawn: the board bounds every run. -/
theorem run_cells_give_pawns (g : Onoro)
    {d : Coord} (hd : d ∈ WIN_DIRS) {col : Nat} (hcol : col ≠ EMPTY) (q : Coord)
    {zs : List Int} (hzs : zs.Nodup)
    (hcells : ∀ z ∈ zs, g.pawnAtP (cadd q (cmul z d)) = col) :
    zs.length ≤ g.pawns.length := by
  classical
  -- pick for each step the pawn sitting on that cell
  have hchoice : ∀ z ∈ zs, ∃ b, (⟨(cadd q (cmul z d)).1, (cadd q (cmul z d)).2, b⟩ : Pawn) ∈ g.pawns := by
    intro z hz
    have hocc : g.pawnAtP (cadd q (cmul z d)) ≠ EMPTY := by
      rw [hcells z hz]; exact hcol
    rcases pawnAtP_occupied g hocc with ⟨b, hb, _⟩
    exact ⟨b, hb⟩
  let pick : Int → Pawn := fun z =>
    ⟨(cadd q (cmul z d)).1, (cadd q (cmul z d)).2,
      if h : ∃ b, (⟨(cadd q (cmul z d)).1, (cadd q (cmul z d)).2, b⟩ : Pawn) ∈ g.pawns
      then h.choose else true⟩
  have hpickmem : ∀ z ∈ zs, pick z ∈ g.pawns := by
    intro z hz
    have h := hchoice z hz
    simp only [pick, dif_pos h]
    exact h.choose_spec
  have hpickpos : ∀ z, (pick z).pos = cadd q (cmul z d) := by
    intro z; rfl
  have hinj : ∀ z1 ∈ zs, ∀ z2 ∈ zs, pick z1 = pick z2 → z1 = z2 := by
    intro z1 _ z2 _ h
    have : (pick z1).pos = (pick z2).pos := by rw [h]
    rw [hpickpos, hpickpos] at this
    exact cmul_inj_win_dir hd q this
  have hnd2 : (zs.map pick).Nodup := by
    rw [List.nodup_map_iff_inj_on hzs]
    exact hinj
  have hsub : (zs.map pick) ⊆ g.pawns := by
    intro x hx
    rcases List.mem_map.mp hx with ⟨z, hz, hzx⟩
    rw [← hzx]; exact hpickmem z hz
  have := (hnd2.subperm hsub).length_le
  simpa using this

/-- A pawn's color constant is never `EMPTY`. -/
theorem Pawn.color_ne_empty (p : Pawn) : p.color ≠ EMPTY := by
  cases hb : p.black <;> simp [Pawn.color, hb, BLACK, WHITE, EMPTY]

/-- The bridge between the source's `n_in_row >= 4` test and the
specification's "lies on a run of at least 4": on a duplicate-free board they
agree for every pawn on the board. -/
theorem pawnWins_iff_liesOnWinRun (g : Onoro) (hnd : (g.pawns.map Pawn.pos).Nodup)
    {p : Pawn} (hp : p ∈ g.pawns) :
    g.pawnWins p = true ↔ g.liesOnWinRun p := by
  rw [Onoro.pawnWins, List.any_eq_true]
  simp only [decide_eq_true_eq]
  constructor
  · rintro ⟨d, hd, h4⟩
    rw [Onoro.nInRow] at h4
    set F := g.walk p.color (cadd p.pos d) d g.pawns.length with hF
    set B := g.walk p.color (csub p.pos d) (cneg d) g.pawns.length with hB
    have hFB : 3 ≤ F + B := by omega
    have hcellF : ∀ t : Nat, t < F →
        g.pawnAtP (cadd p.pos (cmul ((t : Int) + 1) d)) = p.color := by
      intro t ht
      have h := walk_sound g p.color d g.pawns.length (cadd p.pos d) t ht
      rwa [cadd_cmul_step] at h
    have hcellB : ∀ t : Nat, t < B →
        g.pawnAtP (cadd p.pos (cmul (-((t : Int) + 1)) d)) = p.color := by
      intro t ht
      have h := walk_sound g p.color (cneg d) g.pawns.length (csub p.pos d) t ht
      rwa [cadd_cmul_neg_step] at h
    have hcell : ∀ z : Int, -(B : Int) ≤ z → z ≤ (F : Int) →
        g.pawnAtP (cadd p.pos (cmul z d)) = p.color := by
      intro z hz1 hz2
      rcases lt_trichotomy z 0 with hneg | h0 | hpos
      · have ht : ((-z - 1).toNat : Int) + 1 = -z := by omega
        have := hcellB (-z - 1).toNat (by omega)
        rw [show -(((-z - 1).toNat : Int) + 1) = z by omega] at this
        exact this
      · rw [h0, cadd_cmul_zero]
        exact pawnAtP_of_mem g hnd hp
      · have := hcellF (z - 1).toNat (by omega)
        rw [show ((z - 1).toNat : Int) + 1 = z by omega] at this
        exact this
    refine ⟨d, hd, ⟨min B 3, by omega⟩, ?_⟩
    intro i
    apply hcell <;> simp only [Fin.val_mk] <;> omega
  · rintro ⟨d, hd, k, hwin⟩
    refine ⟨d, hd, ?_⟩
    obtain ⟨kv, hklt⟩ := k
    simp only [Fin.val_mk] at hwin
    -- the four window cells give four distinct pawns, bounding the board
    have hN : 4 ≤ g.pawns.length := by
      have hzs : ([0 - (kv : Int), 1 - (kv : Int), 2 - (kv : Int),
          3 - (kv : Int)] : List Int).Nodup := by
        simp only [List.nodup_cons, List.mem_cons, List.not_mem_nil, List.nodup_nil,
          or_false, not_false_iff, and_true]
        omega
      have hcells : ∀ z ∈ ([0 - (kv : Int), 1 - (kv : Int), 2 - (kv : Int),
          3 - (kv : Int)] : List Int), g.pawnAtP (cadd p.pos (cmul z d)) = p.color := by
        intro z hz
        simp only [List.mem_cons, List.not_mem_nil, or_false] at hz
        rcases hz with h | h | h | h <;> rw [h]
        · have := hwin ⟨0, by omega⟩; simpa using this
        · have := hwin ⟨1, by omega⟩; simpa using this
        · have := hwin ⟨2, by omega⟩; simpa using this
        · have := hwin ⟨3, by omega⟩; simpa using this
      have := run_cells_give_pawns g hd (Pawn.color_ne_empty p) p.pos hzs hcells
      simpa using this
    rw [Onoro.nInRow]
    have hFc : 3 - kv ≤ g.walk p.color (cadd p.pos d) d g.pawns.length := by
      refine walk_complete g p.color d g.pawns.length (cadd p.pos d) (3 - kv)
        (by omega) ?_
      intro j hj
      rw [cadd_cmul_step]
      have hidx : ((kv + j + 1 : Nat) : Int) - (kv : Int) = (j : Int) + 1 := by
        push_cast; ring
      have := hwin ⟨kv + j + 1, by omega⟩
      simp only [Fin.val_mk] at this
      rw [hidx] at this
      exact this
    have hBc : kv ≤ g.walk p.color (csub p.pos d) (cneg d) g.pawns.length := by
      refine walk_complete g p.color (cneg d) g.pawns.length (csub p.pos d) kv
        (by omega) ?_
      intro j hj
      rw [cadd_cmul_neg_step]
      have hidx : ((kv - (j + 1) : Nat) : Int) - (kv : Int) = -((j : Int) + 1) := by
        omega
      have := hwin ⟨kv - (j + 1), by omega⟩
      simp only [Fin.val_mk] at this
      rw [hidx] at this
      exact this
    omega

/-- The scan returns `false` exactly when no pawn passes the 4-in-a-row
test. -/
theorem hasWinnerAux_ok_false_iff (g : Onoro) (l : List Pawn) :
    g.hasWinnerAux l = .ok false ↔ ∀ p ∈ l, g.pawnWins p = false := by
  induction l with
  | nil => simp [Onoro.hasWinnerAux]
  | cons p rest ih =>
    rw [Onoro.hasWinnerAux]
    by_cases hw : g.pawnWins p
    · rw [if_pos hw]
      constructor
      · intro h
        by_cases hb : p.black == g.black_turn <;> simp [hb] at h
      · intro h
        have := h p (List.mem_cons_self p rest)
        rw [hw] at this; cases this
    · rw [if_neg hw]
      rw [ih]
      constructor
      · intro h q hq
        rcases List.mem_cons.mp hq with h' | h'
        · rw [h']; exact Bool.not_eq_true _ ▸ (by simpa using hw)
        · exact h q h'
      · intro h q hq
        exact h q (List.mem_cons_of_mem p hq)

/-- The scan's result is decided by the first pawn passing the test. -/
theorem hasWinnerAux_found (g : Onoro) (l1 : List Pawn) (p : Pawn) (l2 : List Pawn)
    (h1 : ∀ q ∈ l1, g.pawnWins q = false) (hp : g.pawnWins p = true) :
    g.hasWinnerAux (l1 ++ p :: l2) =
      if p.black == g.black_turn then .error .runtimeCurrentPlayerWinning
      else .ok true := by
  induction l1 with
  | nil =>
    rw [List.nil_append, Onoro.hasWinnerAux, if_pos hp]
  | cons q t ih =>
    rw [List.cons_append, Onoro.hasWinnerAux,
      if_neg (by rw [h1 q (List.mem_cons_self q t)]; exact Bool.false_ne_true)]
    exact ih (fun r hr => h1 r (List.mem_cons_of_mem q hr))

/-- A `true` result exhibits a winning pawn. -/
theorem hasWinnerAux_ok_true (g : Onoro) (l : List Pawn)
    (h : g.hasWinnerAux l = .ok true) : ∃ p ∈ l, g.pawnWins p = true := by
  induction l with
  | nil => simp [Onoro.hasWinnerAux] at h
  | cons p rest ih =>
    rw [Onoro.hasWinnerAux] at h
    by_cases hw : g.pawnWins p
    · exact ⟨p, List.mem_cons_self p rest, hw⟩
    · rw [if_neg hw] at h
      rcases ih h with ⟨q, hq, hqw⟩
      exact ⟨q, List.mem_cons_of_mem p hq, hqw⟩

/-! ## Playable spots -/

/-- Membership in `PlayableSpots`: exactly the unoccupied cells that at least
two pawns of `ps` have as a neighbor. -/
theorem mem_PlayableSpots (ps : List Coord) (c : Coord) :
    c ∈ Onoro.PlayableSpots ps ↔
      c ∉ ps ∧ 2 ≤ (ps.filter (fun p => decide (c ∈ coord_neighbors p))).length := by
  unfold Onoro.PlayableSpots
  simp only [List.mem_filter, List.mem_dedup, List.mem_flatMap, decide_eq_true_eq]
  constructor
  · rintro ⟨⟨_, hout⟩, hcount⟩
    exact ⟨hout, hcount⟩
  · rintro ⟨hout, hcount⟩
    refine ⟨⟨?_, hout⟩, hcount⟩
    have hne : ps.filter (fun p => decide (c ∈ coord_neighbors p)) ≠ [] := by
      intro h; rw [h] at hcount; simp at hcount
    rcases List.exists_mem_of_ne_nil _ hne with ⟨p, hp⟩
    have hmem := List.mem_of_mem_filter hp
    have hnb := List.of_mem_filter hp
    simp only [decide_eq_true_eq] at hnb
    exact ⟨p, hmem, hnb⟩

/-- The neighbor offset set is symmetric, so "`≥ 2` pawns have `c` as a
neighbor" (the source's count) and "`c` borders `≥ 2` pawns" (the
specification's phrasing) are the same count. -/
theorem count_neighbors_symm (ps : List Coord) (c : Coord) :
    (ps.filter (fun p => decide (c ∈ coord_neighbors p))).length =
      (ps.filter (fun p => decide (Adj c p))).length := by
  have : ∀ p ∈ ps, (decide (c ∈ coord_neighbors p)) = (decide (Adj c p)) := by
    intro p _
    rw [decide_eq_decide]
    exact (adj_symm (a := p) (b := c))
  rw [List.filter_congr this]

/-- `PlayableSpots` membership in the specification's phrasing. -/
theorem mem_PlayableSpots_spec (ps : List Coord) (c : Coord) :
    c ∈ Onoro.PlayableSpots ps ↔ c ∉ ps ∧ BordersAtLeastTwo ps c := by
  rw [mem_PlayableSpots, BordersAtLeastTwo, count_neighbors_symm]

/-- The playable-spot list has no duplicates (the source's dict has unique
keys). -/
theorem PlayableSpots_nodup (ps : List Coord) : (Onoro.PlayableSpots ps).Nodup :=
  List.Nodup.filter _ (List.nodup_dedup _)

/-- The source's `TwoNeighborsEach` is the specification's "every pawn has at
least 2 occupied neighbors". -/
theorem TwoNeighborsEach_iff (ps : List Coord) :
    Onoro.TwoNeighborsEach ps = true ↔ EveryPawnTwoNeighbors ps := by
  simp [Onoro.TwoNeighborsEach, EveryPawnTwoNeighbors, List.all_eq_true]

/-! ## Flood fill: `_RemoveAdjacent` computes reachability -/

/-- The flood fill only removes elements: both functions return sublists of
their input set, for every fuel. -/
theorem remAdjacent_sublist_all (fuel : Nat) :
    (∀ pawn ps, (remAdjacent fuel pawn ps).Sublist ps) ∧
    (∀ ns ps, (remAdjacentGo fuel ns ps).Sublist ps) := by
  induction fuel with
  | zero =>
    constructor
    · intro pawn ps; rw [remAdjacent]
    · intro ns
      induction ns with
      | nil => intro ps; rw [remAdjacentGo]
      | cons n t ih =>
        intro ps; rw [remAdjacentGo]
        split
        · rw [remAdjacent]
          exact (ih _).trans (List.erase_sublist n ps)
        · exact ih ps
  | succ f ihf =>
    have hrem : ∀ pawn ps, (remAdjacent (f + 1) pawn ps).Sublist ps := by
      intro pawn ps; rw [remAdjacent]; exact ihf.2 _ _
    refine ⟨hrem, ?_⟩
    intro ns
    induction ns with
    | nil => intro ps; rw [remAdjacentGo]
    | cons n t ih =>
      intro ps; rw [remAdjacentGo]
      split
      · exact ((ih _).trans (hrem _ _)).trans (List.erase_sublist n ps)
      · exact ih ps

theorem remAdjacentGo_sublist (fuel : Nat) (ns ps : List Coord) :
    (remAdjacentGo fuel ns ps).Sublist ps :=
  (remAdjacent_sublist_all fuel).2 ns ps

/-- Reachability is monotone in the allowed set. -/
theorem ReachIn.mono {S T : List Coord} (h : ∀ x ∈ S, x ∈ T) {a b : Coord}
    (r : ReachIn S a b) : ReachIn T a b :=
  Relation.ReflTransGen.mono (fun _ v hs => ⟨hs.1, h v hs.2⟩) r

/-- A path from `a` can be rerouted to avoid revisiting `a`: drop everything
up to the last visit. -/
theorem ReachIn.erase_src {S : List Coord} (hnd : S.Nodup) {a c : Coord}
    (h : ReachIn S a c) : c = a ∨ ReachIn (S.erase a) a c := by
  induction h with
  | refl => exact Or.inl rfl
  | @tail b c h1 h2 ih =>
    by_cases hca : c = a
    · exact Or.inl hca
    · right
      have hc : c ∈ S.erase a := (List.Nodup.mem_erase_iff hnd).mpr ⟨hca, h2.2⟩
      rcases ih with hba | hr
      · subst hba; exact Relation.ReflTransGen.single ⟨h2.1, hc⟩
      · exact hr.tail ⟨h2.1, hc⟩

/-- Confluence of removal: a path to a cell not reachable from `n` never
meets the set removed by flooding from `n`, so it survives inside the
remainder `B`. -/
theorem ReachIn.avoid {S B : List Coord} {n m c : Coord}
    (hB : ∀ x, x ∈ B ↔ x ∈ S ∧ ¬ ReachIn S n x)
    (h : ReachIn S m c) : ¬ ReachIn S n c → ReachIn B m c := by
  induction h with
  | refl => intro _; exact Relation.ReflTransGen.refl
  | tail h1 h2 ih =>
    intro hnc
    have hnb : ¬ ReachIn S n _ := fun hr => hnc (hr.tail h2)
    exact (ih hnb).tail ⟨h2.1, (hB _).mpr ⟨h2.2, hnc⟩⟩

/-- A path leaving a cell not in the set starts with a neighbor step. -/
theorem ReachIn.head_decomp {S : List Coord} {n c : Coord} (hn : n ∉ S) (hc : c ∈ S)
    (h : ReachIn S n c) : ∃ m ∈ coord_neighbors n, m ∈ S ∧ ReachIn S m c := by
  rcases Relation.ReflTransGen.cases_head h with heq | ⟨b, hstep, hrest⟩
  · subst heq; exact absurd hc hn
  · exact ⟨b, hstep.1, hstep.2, hrest⟩

/-- Correctness of the depth-first removal: with enough fuel (one more than
the set size for `remAdjacent`, the set size for the worklist loop), the
flood fill removes exactly the cells reachable from the start, leaving
`ps \ reachable`. -/
theorem remAdjacent_spec_all (fuel : Nat) :
    (∀ pawn ps, ps.Nodup → pawn ∉ ps → ps.length + 1 ≤ fuel → ∀ c,
       (c ∈ remAdjacent fuel pawn ps ↔ c ∈ ps ∧ ¬ ReachIn ps pawn c)) ∧
    (∀ ns ps, ps.Nodup → ps.length ≤ fuel → ∀ c,
       (c ∈ remAdjacentGo fuel ns ps ↔
         c ∈ ps ∧ ¬ ∃ n, n ∈ ns ∧ n ∈ ps ∧ ReachIn ps n c)) := by
  induction fuel with
  | zero =>
    constructor
    · intro pawn ps _ _ hlen
      exact absurd hlen (by omega)
    · intro ns ps hnd hlen c
      have hps : ps = [] := List.eq_nil_of_length_eq_zero (by omega)
      subst hps
      have hsub := remAdjacentGo_sublist 0 ns []
      constructor
      · intro hc; exact absurd (hsub.subset hc) (List.not_mem_nil c)
      · rintro ⟨hc, _⟩; exact absurd hc (List.not_mem_nil c)
  | succ f ihf =>
    obtain ⟨ihrem, ihgo⟩ := ihf
    have hrem : ∀ pawn ps, ps.Nodup → pawn ∉ ps → ps.length + 1 ≤ f + 1 → ∀ c,
        (c ∈ remAdjacent (f + 1) pawn ps ↔ c ∈ ps ∧ ¬ ReachIn ps pawn c) := by
      intro pawn ps hnd hpn hlen c
      rw [remAdjacent]
      rw [ihgo (coord_neighbors pawn) ps hnd (by omega) c]
      constructor
      · rintro ⟨hc, hno⟩
        refine ⟨hc, fun hr => hno ?_⟩
        rcases ReachIn.head_decomp hpn hc hr with ⟨m, hmnb, hmps, hmr⟩
        exact ⟨m, hmnb, hmps, hmr⟩
      · rintro ⟨hc, hno⟩
        refine ⟨hc, ?_⟩
        rintro ⟨n, hnnb, hnps, hnr⟩
        exact hno (Relation.ReflTransGen.head ⟨hnnb, hnps⟩ hnr)
    refine ⟨hrem, ?_⟩
    intro ns
    induction ns with
    | nil =>
      intro ps hnd hlen c
      rw [remAdjacentGo]
      simp
    | cons n t iht =>
      intro ps hnd hlen c
      rw [remAdjacentGo]
      by_cases hnps : n ∈ ps
      · rw [if_pos hnps]
        set r := remAdjacent (f + 1) n (ps.erase n) with hrdef
        have herlen : (ps.erase n).length = ps.length - 1 := List.length_erase_of_mem hnps
        have hlen1 : 1 ≤ ps.length := List.length_pos.mpr (List.ne_nil_of_mem hnps)
        have hernd : (ps.erase n).Nodup := hnd.erase n
        have hnnotin : n ∉ ps.erase n := by
          intro hmem
          exact ((List.Nodup.mem_erase_iff hnd).mp hmem).1 rfl
        have hrchar0 := hrem n (ps.erase n) hernd hnnotin (by omega)
        have hrchar : ∀ x, x ∈ r ↔ x ∈ ps ∧ ¬ ReachIn ps n x := by
          intro x
          rw [hrdef, hrchar0 x]
          constructor
          · rintro ⟨hx, hnr⟩
            have hxps := (List.Nodup.mem_erase_iff hnd).mp hx
            refine ⟨hxps.2, fun hre => hnr ?_⟩
            rcases ReachIn.erase_src hnd hre with hxe | hre'
            · exact absurd hxe hxps.1
            · exact hre'
          · rintro ⟨hx, hnr⟩
            have hxn : x ≠ n := by
              rintro rfl; exact hnr Relation.ReflTransGen.refl
            refine ⟨(List.Nodup.mem_erase_iff hnd).mpr ⟨hxn, hx⟩, fun hre => hnr ?_⟩
            exact ReachIn.mono (fun y hy => ((List.Nodup.mem_erase_iff hnd).mp hy).2) hre
        have hrsub := (remAdjacent_sublist_all (f + 1)).1 n (ps.erase n)
        rw [← hrdef] at hrsub
        have hrnd : r.Nodup := List.Nodup.sublist hrsub hernd
        have hrlen : r.length ≤ f + 1 := by
          have := hrsub.length_le
          omega
        rw [iht r hrnd hrlen c]
        constructor
        · rintro ⟨hcr, hnot2⟩
          have hcc := (hrchar c).mp hcr
          refine ⟨hcc.1, ?_⟩
          rintro ⟨m, hmt, hmps, hmr⟩
          rcases List.mem_cons.mp hmt with rfl | hmt'
          · exact hcc.2 hmr
          · apply hnot2
            refine ⟨m, hmt', (hrchar m).mpr ⟨hmps, ?_⟩, ?_⟩
            · intro hnm; exact hcc.2 (hnm.trans hmr)
            · exact ReachIn.avoid hrchar hmr hcc.2
        · rintro ⟨hcps, hnot⟩
          have hncr : ¬ ReachIn ps n c := fun hr =>
            hnot ⟨n, List.mem_cons_self n t, hnps, hr⟩
          refine ⟨(hrchar c).mpr ⟨hcps, hncr⟩, ?_⟩
          rintro ⟨m, hmt, hmr, hmrc⟩
          have hmps := ((hrchar m).mp hmr).1
          exact hnot ⟨m, List.mem_cons_of_mem n hmt, hmps,
            ReachIn.mono (fun y hy => ((hrchar y).mp hy).1) hmrc⟩
      · rw [if_neg hnps]
        rw [iht ps hnd hlen c]
        constructor
        · rintro ⟨hc, hno⟩
          refine ⟨hc, ?_⟩
          rintro ⟨m, hmt, hmps, hmr⟩
          rcases List.mem_cons.mp hmt with rfl | hmt'
          · exact hnps hmps
          · exact hno ⟨m, hmt', hmps, hmr⟩
        · rintro ⟨hc, hno⟩
          refine ⟨hc, ?_⟩
          rintro ⟨m, hmt, hmps, hmr⟩
          exact hno ⟨m, List.mem_cons_of_mem n hmt, hmps, hmr⟩

/-- A reachability path through `rest` from `p` is a path of the
membership-decorated relation on `p :: rest`. -/
theorem reachIn_to_relOn {rest : List Coord} {p c : Coord} (h : ReachIn rest p c) :
    Relation.ReflTransGen (fun u v => u ∈ p :: rest ∧ v ∈ p :: rest ∧ Adj u v) p c ∧
      c ∈ p :: rest := by
  induction h with
  | refl => exact ⟨Relation.ReflTransGen.refl, List.mem_cons_self p rest⟩
  | @tail b c h1 h2 ih =>
    exact ⟨ih.1.tail ⟨ih.2, List.mem_cons_of_mem p h2.2, h2.1⟩,
      List.mem_cons_of_mem p h2.2⟩

/-- The source's `Connected` test decides the specification's connectivity:
on a duplicate-free set it returns true exactly when any two occupied cells
are joined by a path of adjacent occupied cells. -/
theorem Connected_iff_SetConnected (l : List Coord) (hnd : l.Nodup) :
    Onoro.Connected l = true ↔ SetConnected l := by
  cases l with
  | nil =>
    rw [Onoro.Connected]
    constructor
    · intro _ a ha; exact absurd ha (List.not_mem_nil a)
    · intro _; rfl
  | cons p rest =>
    have hpn : p ∉ rest := (List.nodup_cons.mp hnd).1
    have hrnd : rest.Nodup := (List.nodup_cons.mp hnd).2
    rw [Onoro.Connected]
    have hchar := (remAdjacent_spec_all (rest.length + 1)).1 p rest hrnd hpn (by omega)
    rw [List.isEmpty_iff, List.eq_nil_iff_forall_not_mem]
    constructor
    · intro hall
      have hreach : ∀ c ∈ rest, ReachIn rest p c := by
        intro c hc
        by_contra hnc
        exact hall c ((hchar c).mpr ⟨hc, hnc⟩)
      intro a ha b hb
      have hsymm : Symmetric (fun u v : Coord =>
          u ∈ p :: rest ∧ v ∈ p :: rest ∧ Adj u v) := by
        rintro u v ⟨hu, hv, hadj⟩
        exact ⟨hv, hu, adj_symm.mp hadj⟩
      have hpath : ∀ c ∈ p :: rest, Relation.ReflTransGen
          (fun u v => u ∈ p :: rest ∧ v ∈ p :: rest ∧ Adj u v) p c := by
        intro c hc
        rcases List.mem_cons.mp hc with rfl | hc'
        · exact Relation.ReflTransGen.refl
        · exact (reachIn_to_relOn (hreach c hc')).1
      have h1 := hpath a ha
      have h2 := hpath b hb
      exact ((Relation.ReflTransGen.symmetric hsymm) h1).trans h2
    · intro hsc c hc
      have hcc := (hchar c).mp hc
      apply hcc.2
      have hpathl : Relation.ReflTransGen
          (fun u v => u ∈ p :: rest ∧ v ∈ p :: rest ∧ Adj u v) p c :=
        hsc p (List.mem_cons_self p rest) c (List.mem_cons_of_mem p hcc.1)
      have hl : ReachIn (p :: rest) p c :=
        Relation.ReflTransGen.mono (fun u v h => ⟨h.2.2, h.2.1⟩) hpathl
      rcases ReachIn.erase_src hnd hl with rfl | h'
      · exact absurd hcc.1 hpn
      · rw [List.erase_cons_head] at h'
        exact h'

/-- Characterization of the phase-2 move list on a duplicate-free board:
exactly the pairs the specification describes.  `rem` below is the remaining
pawn set after lifting the source pawn. -/
theorem mem_p2MoveList (g : Onoro) (hnd : (g.pawns.map Pawn.pos).Nodup)
    (src dst : Pawn) :
    (src, dst) ∈ g.p2MoveList ↔
      src ∈ g.pawns ∧ src.black = g.black_turn ∧ dst.black = src.black ∧
      dst.pos ≠ src.pos ∧ dst.pos ∉ (g.pawns.map Pawn.pos).erase src.pos ∧
      BordersAtLeastTwo ((g.pawns.map Pawn.pos).erase src.pos) dst.pos ∧
      SetConnected (dst.pos :: (g.pawns.map Pawn.pos).erase src.pos) ∧
      EveryPawnTwoNeighbors (dst.pos :: (g.pawns.map Pawn.pos).erase src.pos) := by
  have hco : g.coords = g.pawns.map Pawn.pos := by
    rw [Onoro.coords, List.dedup_eq_self.mpr hnd]
  rw [Onoro.p2MoveList]
  rw [List.mem_flatMap]
  constructor
  · rintro ⟨pawn, hpawn, hmem⟩
    by_cases hb : pawn.black != g.black_turn
    · rw [if_pos hb] at hmem
      exact absurd hmem (List.not_mem_nil _)
    · rw [if_neg hb] at hmem
      have hbe : pawn.black = g.black_turn := by
        simpa using hb
      rw [List.mem_filterMap] at hmem
      rcases hmem with ⟨c, hcps, hf⟩
      rw [hco] at hcps hf
      by_cases hcp : c = pawn.pos
      · rw [if_pos hcp] at hf; cases hf
      · rw [if_neg hcp] at hf
        by_cases hcond : Onoro.Connected (c :: (g.pawns.map Pawn.pos).erase pawn.pos) = true ∧
            Onoro.TwoNeighborsEach (c :: (g.pawns.map Pawn.pos).erase pawn.pos) = true
        · rw [if_pos hcond] at hf
          injection hf with hf1
          injection hf1 with hsrc hdst
          rw [hsrc] at hpawn hbe hdst hcp hcps hcond
          have hdpos : dst.pos = c := by rw [← hdst]; rfl
          have hdblack : dst.black = src.black := by rw [← hdst]; rfl
          have hspec := (mem_PlayableSpots_spec _ c).mp hcps
          have hrnd : ((g.pawns.map Pawn.pos).erase src.pos).Nodup := hnd.erase _
          have hcnotin : c ∉ (g.pawns.map Pawn.pos).erase src.pos := hspec.1
          have hlnd : (c :: (g.pawns.map Pawn.pos).erase src.pos).Nodup :=
            List.nodup_cons.mpr ⟨hcnotin, hrnd⟩
          refine ⟨hpawn, hbe, hdblack, ?_, ?_, ?_, ?_, ?_⟩
          · rw [hdpos]; exact hcp
          · rw [hdpos]; exact hspec.1
          · rw [hdpos]; exact hspec.2
          · rw [hdpos]
            exact (Connected_iff_SetConnected _ hlnd).mp hcond.1
          · rw [hdpos]
            exact (TwoNeighborsEach_iff _).mp hcond.2
        · rw [if_neg hcond] at hf; cases hf
  · rintro ⟨hsrc, hbe, hdb, hne, hnotin, hborders, hconn, htwo⟩
    refine ⟨src, hsrc, ?_⟩
    have hb : (src.black != g.black_turn) = false := by simp [hbe]
    rw [hb]
    simp only [Bool.false_eq_true, if_false]
    rw [List.mem_filterMap]
    refine ⟨dst.pos, ?_, ?_⟩
    · rw [hco]
      exact (mem_PlayableSpots_spec _ _).mpr ⟨hnotin, hborders⟩
    · rw [hco, if_neg hne]
      have hrnd : ((g.pawns.map Pawn.pos).erase src.pos).Nodup := hnd.erase _
      have hlnd : (dst.pos :: (g.pawns.map Pawn.pos).erase src.pos).Nodup :=
        List.nodup_cons.mpr ⟨hnotin, hrnd⟩
      rw [if_pos ⟨(Connected_iff_SetConnected _ hlnd).mpr hconn,
        (TwoNeighborsEach_iff _).mpr htwo⟩]
      have : CoordToPawn dst.pos src.black = dst := by
        cases dst with
        | mk x y b =>
          simp only [CoordToPawn, Pawn.pos] at hdb ⊢
          rw [hdb]
      rw [this]

/-! ## Equality (`__eq__`) as translation-invariant multiset equality -/

theorem foldl_minx_add (r : List Pawn) (cx : Int) :
    ∀ a : Int, r.foldl (fun m q => min m (q.x + cx)) (a + cx) =
      r.foldl (fun m q => min m q.x) a + cx := by
  induction r with
  | nil => intro a; rfl
  | cons q t ih =>
    intro a
    simp only [List.foldl_cons]
    rw [min_add_add_right a q.x cx]
    exact ih (min a q.x)

theorem foldl_miny_add (r : List Pawn) (cy : Int) :
    ∀ a : Int, r.foldl (fun m q => min m (q.y + cy)) (a + cy) =
      r.foldl (fun m q => min m q.y) a + cy := by
  induction r with
  | nil => intro a; rfl
  | cons q t ih =>
    intro a
    simp only [List.foldl_cons]
    rw [min_add_add_right a q.y cy]
    exact ih (min a q.y)

theorem minXs_map_add (l : List Pawn) (cx cy : Int) (hl : l ≠ []) :
    minXs (l.map (fun p => ⟨p.x + cx, p.y + cy, p.black⟩)) = minXs l + cx := by
  cases l with
  | nil => exact absurd rfl hl
  | cons p r =>
    simp only [List.map_cons, minXs]
    rw [List.foldl_map]
    exact foldl_minx_add r cx p.x

theorem minYs_map_add (l : List Pawn) (cx cy : Int) (hl : l ≠ []) :
    minYs (l.map (fun p => ⟨p.x + cx, p.y + cy, p.black⟩)) = minYs l + cy := by
  cases l with
  | nil => exact absurd rfl hl
  | cons p r =>
    simp only [List.map_cons, minYs]
    rw [List.foldl_map]
    exact foldl_miny_add r cy p.y

/-- `__eq__` on duplicate-free states is exactly: same `num_pawns`, same
`black_turn`, and equal pawn multisets after each state is normalized by its
own minimum. -/
theorem eq_iff_norm_multiset (g h : Onoro)
    (ndg : (g.pawns.map Pawn.pos).Nodup) :
    Onoro.eq g h = true ↔
      g.num_pawns = h.num_pawns ∧ g.black_turn = h.black_turn ∧
      (g.normPawns : Multiset Pawn) = (h.normPawns : Multiset Pawn) := by
  rw [Onoro.eq]
  simp only [Bool.and_eq_true, beq_iff_eq, List.all_eq_true, decide_eq_true_eq]
  set ax := minXs g.pawns
  set ay := minYs g.pawns
  set bx := minXs h.pawns
  set by' := minYs h.pawns
  set f : Pawn → Pawn := fun p => ⟨p.x - ax + bx, p.y - ay + by', p.black⟩ with hf
  constructor
  · rintro ⟨⟨⟨hnum, hturn⟩, hlen⟩, hmem⟩
    refine ⟨hnum, hturn, ?_⟩
    have hmapnd : (g.pawns.map f).Nodup := by
      have hposnd : ((g.pawns.map f).map Pawn.pos).Nodup := by
        rw [List.map_map]
        have hcomp : (Pawn.pos ∘ f) =
            (fun c : Coord => (c.1 - ax + bx, c.2 - ay + by')) ∘ Pawn.pos := by
          funext p; rfl
        rw [hcomp, ← List.map_map]
        refine List.Nodup.map ?_ ndg
        intro u v huv
        simp only [Prod.mk.injEq] at huv
        have huv' : u.1 = v.1 ∧ u.2 = v.2 := by omega
        exact Prod.ext huv'.1 huv'.2
      exact List.Nodup.of_map Pawn.pos hposnd
    have hsubset : (g.pawns.map f) ⊆ h.pawns := by
      intro x hx
      rcases List.mem_map.mp hx with ⟨p, hp, hpx⟩
      rw [← hpx]
      exact hmem p hp
    have hle : ((g.pawns.map f : List Pawn) : Multiset Pawn) ≤ (h.pawns : Multiset Pawn) := by
      rw [Multiset.coe_le]
      exact hmapnd.subperm hsubset
    have hperm : ((g.pawns.map f : List Pawn) : Multiset Pawn) = (h.pawns : Multiset Pawn) := by
      refine Multiset.eq_of_le_of_card_le hle ?_
      simp [hlen]
    have hnh : (h.normPawns : Multiset Pawn) =
        Multiset.map (fun p : Pawn => (⟨p.x - bx, p.y - by', p.black⟩ : Pawn))
          (h.pawns : Multiset Pawn) := by
      rw [Onoro.normPawns, Multiset.map_coe]
    rw [hnh, ← hperm, Onoro.normPawns, Multiset.map_coe, List.map_map]
    congr 1
    apply List.map_congr_left
    intro p _
    show (⟨p.x - ax, p.y - ay, p.black⟩ : Pawn) =
      (⟨(f p).x - bx, (f p).y - by', (f p).black⟩ : Pawn)
    simp only [hf, Pawn.mk.injEq]
    exact ⟨by ring, by ring, trivial⟩
  · rintro ⟨hnum, hturn, hms⟩
    have hlen : g.pawns.length = h.pawns.length := by
      have hcard := congrArg Multiset.card hms
      simpa [Onoro.normPawns] using hcard
    refine ⟨⟨⟨hnum, hturn⟩, hlen⟩, ?_⟩
    intro p hp
    have hin : (⟨p.x - ax, p.y - ay, p.black⟩ : Pawn) ∈ (g.normPawns : Multiset Pawn) := by
      rw [Onoro.normPawns]
      simp only [Multiset.mem_coe]
      exact List.mem_map_of_mem _ hp
    rw [hms, Onoro.normPawns] at hin
    simp only [Multiset.mem_coe, List.mem_map] at hin
    rw [show minXs h.pawns = bx from rfl, show minYs h.pawns = by' from rfl] at hin
    rcases hin with ⟨⟨qx, qy, qb⟩, hq, hqe⟩
    injection hqe with hq1 hq2 hq3
    have hqf : (⟨p.x - ax + bx, p.y - ay + by', p.black⟩ : Pawn) = ⟨qx, qy, qb⟩ := by
      simp only [Pawn.mk.injEq]
      refine ⟨by linarith [hq1], by linarith [hq2], hq3.symm⟩
    rw [hqf]
    exact hq

/-! ## Symmetry enumeration -/

/-- Six 60°-rotations are the identity on states. -/
theorem rotate_60_six (g : Onoro) :
    g.rotate_60.rotate_60.rotate_60.rotate_60.rotate_60.rotate_60 = g := by
  cases g with
  | mk n ps t =>
    simp only [Onoro.rotate_60, List.map_map]
    congr 1
    trans (List.map id ps)
    · apply List.map_congr_left
      intro p _
      cases p with
      | mk x y b =>
        simp only [Function.comp, id, Pawn.mk.injEq]
        refine ⟨by ring, by ring, trivial⟩
    · exact List.map_id ps

/-- Any nonempty selection from a list has a first member in list order. -/
theorem exists_first_split {l : List Pawn} {P : Pawn → Bool}
    (h : ∃ p ∈ l, P p = true) :
    ∃ l1 p l2, l = l1 ++ p :: l2 ∧ (∀ q ∈ l1, P q = false) ∧ P p = true := by
  induction l with
  | nil => simp at h
  | cons q t ih =>
    by_cases hq : P q
    · exact ⟨[], q, t, rfl, by simp, hq⟩
    · have hqf : P q = false := by simpa using hq
      rcases h with ⟨p, hp, hpw⟩
      rcases List.mem_cons.mp hp with rfl | hp'
      · rw [hqf] at hpw; cases hpw
      · rcases ih ⟨p, hp', hpw⟩ with ⟨l1, p', l2, heq, hall, hw⟩
        refine ⟨q :: l1, p', l2, by rw [heq]; rfl, ?_, hw⟩
        intro r hr
        rcases List.mem_cons.mp hr with rfl | hr'
        · exact hqf
        · exact hall r hr'

/-! ## Claim theorems -/

/-- C1.  For every phase-2 state (`|pawns| = num_pawns`) over a
duplicate-free pawn set (§3 invariant), `P2Moves` succeeds and yields exactly
the pairs (source pawn, destination pawn) such that: the source pawn belongs
to the state and has the color to move, the destination has the source's
color and sits on a cell different from the source's original cell and
unoccupied after removing the source, that cell borders at least 2 pawns of
the remaining set, and the resulting pawn set (remaining pawns plus the
destination) is a single connected component under the 6-neighbor adjacency
with every pawn having at least 2 occupied neighbors. -/
theorem c1_p2_moves_exact (g : Onoro) (hnd : (g.pawns.map Pawn.pos).Nodup)
    (hph : (g.pawns.length : Int) = g.num_pawns) :
    g.P2Moves = .ok g.p2MoveList ∧
    ∀ src dst, ((src, dst) ∈ g.p2MoveList ↔
      src ∈ g.pawns ∧ src.black = g.black_turn ∧ dst.black = src.black ∧
      dst.pos ≠ src.pos ∧ dst.pos ∉ (g.pawns.map Pawn.pos).erase src.pos ∧
      BordersAtLeastTwo ((g.pawns.map Pawn.pos).erase src.pos) dst.pos ∧
      SetConnected (dst.pos :: (g.pawns.map Pawn.pos).erase src.pos) ∧
      EveryPawnTwoNeighbors (dst.pos :: (g.pawns.map Pawn.pos).erase src.pos)) := by
  constructor
  · rw [Onoro.P2Moves, if_neg (by rw [hph]; exact fun hne => hne rfl)]
  · intro src dst
    exact mem_p2MoveList g hnd src dst

/-- Witness for C1 at the concrete full 4-pawn board. -/
theorem c1_p2_moves_exact_witness :
    ((smallFull.pawns.map Pawn.pos).Nodup ∧ (smallFull.pawns.length : Int) = smallFull.num_pawns) ∧
    (smallFull.P2Moves = .ok smallFull.p2MoveList ∧
     ∀ src dst, ((src, dst) ∈ smallFull.p2MoveList ↔
      src ∈ smallFull.pawns ∧ src.black = smallFull.black_turn ∧ dst.black = src.black ∧
      dst.pos ≠ src.pos ∧ dst.pos ∉ (smallFull.pawns.map Pawn.pos).erase src.pos ∧
      BordersAtLeastTwo ((smallFull.pawns.map Pawn.pos).erase src.pos) dst.pos ∧
      SetConnected (dst.pos :: (smallFull.pawns.map Pawn.pos).erase src.pos) ∧
      EveryPawnTwoNeighbors (dst.pos :: (smallFull.pawns.map Pawn.pos).erase src.pos))) :=
  ⟨⟨by decide, by decide⟩, c1_p2_moves_exact smallFull (by decide) (by decide)⟩

/-- C2.  On every duplicate-free state, `HasWinner` (with
`check_errors=True`): returns false exactly when no pawn lies on a run of at
least 4 consecutive same-colored pawns along one of the three directions
`(1,0)`, `(1,1)`, `(0,1)`; returns true when some pawn lies on such a run and
the winning color (the color of every pawn on such a run) is not the color
about to move; and raises the invariant-violation error instead of returning
when the winning color equals the color about to move
(`pawn.black == black_turn`). -/
theorem c2_has_winner (g : Onoro) (hnd : (g.pawns.map Pawn.pos).Nodup) :
    ((∀ p ∈ g.pawns, ¬ g.liesOnWinRun p) → g.HasWinner = .ok false) ∧
    (g.HasWinner = .ok false → ∀ p ∈ g.pawns, ¬ g.liesOnWinRun p) ∧
    ((∃ p ∈ g.pawns, g.liesOnWinRun p) →
      (∀ p ∈ g.pawns, g.liesOnWinRun p → p.black ≠ g.black_turn) →
      g.HasWinner = .ok true) ∧
    ((∃ p ∈ g.pawns, g.liesOnWinRun p) →
      (∀ p ∈ g.pawns, g.liesOnWinRun p → p.black = g.black_turn) →
      g.HasWinner = .error .runtimeCurrentPlayerWinning) ∧
    (g.HasWinner = .ok true → ∃ p ∈ g.pawns, g.liesOnWinRun p) := by
  have hbridge : ∀ p ∈ g.pawns, (g.pawnWins p = true ↔ g.liesOnWinRun p) :=
    fun p hp => pawnWins_iff_liesOnWinRun g hnd hp
  refine ⟨?_, ?_, ?_, ?_, ?_⟩
  · intro hno
    rw [Onoro.HasWinner, hasWinnerAux_ok_false_iff]
    intro p hp
    rw [← Bool.not_eq_true]
    intro hw
    exact hno p hp ((hbridge p hp).mp hw)
  · intro hok p hp hrun
    rw [Onoro.HasWinner, hasWinnerAux_ok_false_iff] at hok
    have := hok p hp
    rw [(hbridge p hp).mpr hrun] at this
    cases this
  · rintro ⟨p, hp, hrun⟩ hall
    rcases exists_first_split (P := g.pawnWins)
        ⟨p, hp, (hbridge p hp).mpr hrun⟩ with ⟨l1, q, l2, heq, hl1, hq⟩
    have hqmem : q ∈ g.pawns := by rw [heq]; simp
    have hqb : q.black ≠ g.black_turn := hall q hqmem ((hbridge q hqmem).mp hq)
    rw [Onoro.HasWinner, heq, hasWinnerAux_found g l1 q l2 hl1 hq,
      if_neg (by simpa using hqb)]
  · rintro ⟨p, hp, hrun⟩ hall
    rcases exists_first_split (P := g.pawnWins)
        ⟨p, hp, (hbridge p hp).mpr hrun⟩ with ⟨l1, q, l2, heq, hl1, hq⟩
    have hqmem : q ∈ g.pawns := by rw [heq]; simp
    have hqb : q.black = g.black_turn := hall q hqmem ((hbridge q hqmem).mp hq)
    rw [Onoro.HasWinner, heq, hasWinnerAux_found g l1 q l2 hl1 hq,
      if_pos (by simpa using hqb)]
  · intro hok
    rcases hasWinnerAux_ok_true g g.pawns hok with ⟨p, hp, hw⟩
    exact ⟨p, hp, (hbridge p hp).mp hw⟩

/-- Witness for C2 at the concrete 4-black-in-a-row boards: white to move
reports the win, black to move raises. -/
theorem c2_has_winner_witness :
    ((winBlackWhiteMoves.pawns.map Pawn.pos).Nodup ∧
     (winBlackBlackMoves.pawns.map Pawn.pos).Nodup) ∧
    winBlackWhiteMoves.HasWinner = .ok true ∧
    winBlackBlackMoves.HasWinner = .error .runtimeCurrentPlayerWinning := by
  refine ⟨⟨by decide, by decide⟩, ?_, ?_⟩
  · exact (c2_has_winner winBlackWhiteMoves (by decide)).2.2.1
      ⟨⟨0, 0, true⟩, by decide, by decide⟩ (by decide)
  · exact (c2_has_winner winBlackBlackMoves (by decide)).2.2.2.1
      ⟨⟨0, 0, true⟩, by decide, by decide⟩ (by decide)

/-- C4.  For every phase-1 state (`|pawns| < num_pawns`) over a
duplicate-free pawn set, `P1Moves` succeeds and yields, once each, exactly
the pawns of the current turn's color on the empty lattice cells bordering at
least 2 distinct occupied coordinates. -/
theorem c4_p1_moves_exact (g : Onoro) (hnd : (g.pawns.map Pawn.pos).Nodup)
    (hph : (g.pawns.length : Int) < g.num_pawns) :
    ∃ moves, g.P1Moves = .ok moves ∧ moves.Nodup ∧
      ∀ pw : Pawn, (pw ∈ moves ↔
        pw.black = g.black_turn ∧ pw.pos ∉ g.pawns.map Pawn.pos ∧
        BordersAtLeastTwo (g.pawns.map Pawn.pos) pw.pos) := by
  have hco : g.coords = g.pawns.map Pawn.pos := by
    rw [Onoro.coords, List.dedup_eq_self.mpr hnd]
  refine ⟨(Onoro.PlayableSpots g.coords).map (fun c => CoordToPawn c g.black_turn),
    ?_, ?_, ?_⟩
  · rw [Onoro.P1Moves, if_neg (by omega)]
  · refine List.Nodup.map ?_ (PlayableSpots_nodup _)
    intro u v huv
    have h1 : (CoordToPawn u g.black_turn).x = (CoordToPawn v g.black_turn).x :=
      congrArg Pawn.x huv
    have h2 : (CoordToPawn u g.black_turn).y = (CoordToPawn v g.black_turn).y :=
      congrArg Pawn.y huv
    simp only [CoordToPawn] at h1 h2
    exact Prod.ext h1 h2
  · intro pw
    rw [List.mem_map]
    constructor
    · rintro ⟨c, hc, hcp⟩
      rw [hco] at hc
      have hspec := (mem_PlayableSpots_spec _ _).mp hc
      have hpos : pw.pos = c := by rw [← hcp]; rfl
      have hblack : pw.black = g.black_turn := by rw [← hcp]; rfl
      rw [hpos]
      exact ⟨hblack, hspec.1, hspec.2⟩
    · rintro ⟨hblack, hout, hbord⟩
      refine ⟨pw.pos, ?_, ?_⟩
      · rw [hco]
        exact (mem_PlayableSpots_spec _ _).mpr ⟨hout, hbord⟩
      · cases pw with
        | mk x y b =>
          simp only [CoordToPawn, Pawn.pos] at hblack ⊢
          rw [hblack]

/-- Witness for C4 at the claim's concrete starting state: the cell `(2,1)`
(bordering `(1,1)` and `(2,2)`) is among the produced white placements. -/
theorem c4_p1_moves_exact_witness :
    ((starting_game.pawns.map Pawn.pos).Nodup ∧
     (starting_game.pawns.length : Int) < starting_game.num_pawns) ∧
    (∃ moves, starting_game.P1Moves = .ok moves ∧ moves.Nodup ∧
      ∀ pw : Pawn, (pw ∈ moves ↔
        pw.black = starting_game.black_turn ∧
        pw.pos ∉ starting_game.pawns.map Pawn.pos ∧
        BordersAtLeastTwo (starting_game.pawns.map Pawn.pos) pw.pos)) ∧
    (∀ moves, starting_game.P1Moves = .ok moves → (⟨2, 1, false⟩ : Pawn) ∈ moves) := by
  refine ⟨⟨by decide, by decide⟩, c4_p1_moves_exact starting_game (by decide) (by decide), ?_⟩
  intro moves hm
  rcases c4_p1_moves_exact starting_game (by decide) (by decide) with ⟨m2, hm2, _, hiff⟩
  rw [hm] at hm2
  injection hm2 with hm2
  rw [hm2]
  exact (hiff ⟨2, 1, false⟩).mpr ⟨by decide, by decide, by decide⟩

/-- C3 (amended).  On records without duplicate coordinates, `deserialize`
with `check_errors=False` performs no checks at all, and with
`check_errors=True` it succeeds exactly when `turn_num = |pawns| - 1`, the
forced turn order holds during placement, and recomputed win detection
returns the stored `finished` flag without raising; in particular it checks
neither color balance nor pawn count. -/
theorem c3_deserialize_checks (gs : GameState) (n : Int)
    (hnd : (gs.pawns.map Pawn.pos).Nodup) :
    deserialize gs n false = .ok ⟨n, gs.pawns, gs.black_turn⟩ ∧
    (deserialize gs n true = .ok ⟨n, gs.pawns, gs.black_turn⟩ ↔
      (gs.turn_num = (gs.pawns.length : Int) - 1 ∧
       (gs.turn_num < n - 1 → gs.black_turn = (gs.turn_num % 2 == 1)) ∧
       Onoro.HasWinner ⟨n, gs.pawns, gs.black_turn⟩ = .ok gs.finished)) := by
  constructor
  · rw [deserialize]
    simp
  · by_cases h1 : gs.turn_num = (gs.pawns.length : Int) - 1
    · by_cases h2 : gs.turn_num < n - 1 ∧ gs.black_turn ≠ (gs.turn_num % 2 == 1)
      · rw [deserialize, if_neg (by simp [h1]), if_pos (by simpa using h2)]
        constructor
        · intro h; cases h
        · rintro ⟨_, hto, _⟩
          exact absurd (hto h2.1) h2.2
      · have hshape : deserialize gs n true =
            (match Onoro.HasWinner ⟨n, gs.pawns, gs.black_turn⟩ with
             | .error e => .error e
             | .ok w => if gs.finished ≠ w then .error .runtimeFinishedMismatch
                        else .ok ⟨n, gs.pawns, gs.black_turn⟩) := by
          rw [deserialize, if_neg (by simp [h1]), if_neg (by simpa using h2)]
          simp
        rw [hshape]
        rcases hw : Onoro.HasWinner ⟨n, gs.pawns, gs.black_turn⟩ with e | w
        · simp only []
          constructor
          · intro h; cases h
          · rintro ⟨_, _, hfin⟩
            cases hfin
        · simp only []
          by_cases h3 : gs.finished = w
          · rw [if_neg (by simp [h3])]
            constructor
            · intro _
              refine ⟨h1, ?_, by rw [h3]⟩
              intro hlt
              by_contra hbt
              exact h2 ⟨hlt, hbt⟩
            · intro _; rfl
          · rw [if_pos h3]
            constructor
            · intro h; cases h
            · rintro ⟨_, _, hfin⟩
              injection hfin with hf
              exact (h3 hf.symm).elim
    · simp [deserialize, h1]

/-- Witness for C3 at a record passing all of deserialize's actual checks. -/
theorem c3_deserialize_checks_witness :
    ((starting_game.pawns.map Pawn.pos).Nodup) ∧
    deserialize ⟨starting_game.pawns, false, 2, false⟩ 6 false =
      .ok ⟨6, starting_game.pawns, false⟩ ∧
    (deserialize ⟨starting_game.pawns, false, 2, false⟩ 6 true =
      .ok ⟨6, starting_game.pawns, false⟩ ↔
      ((2 : Int) = (starting_game.pawns.length : Int) - 1 ∧
       ((2 : Int) < 6 - 1 → false = ((2 : Int) % 2 == 1)) ∧
       Onoro.HasWinner ⟨6, starting_game.pawns, false⟩ = .ok false)) := by
  refine ⟨by decide, ?_, ?_⟩
  · exact (c3_deserialize_checks ⟨starting_game.pawns, false, 2, false⟩ 6 (by decide)).1
  · exact (c3_deserialize_checks ⟨starting_game.pawns, false, 2, false⟩ 6 (by decide)).2

/-- Counterexample to C3 as stated: a record violating both the
color-balance invariant (3 black vs 0 white) and the pawn-count invariant
(3 pawns against `num_pawns = 2`) which `deserialize` with
`check_errors=True` nevertheless accepts. -/
theorem c3_counterexample :
    deserialize unbalancedRecord 2 true =
      .ok ⟨2, unbalancedRecord.pawns, false⟩ ∧
    ((unbalancedRecord.pawns.filter (fun p => p.black)).length : Int) -
      ((unbalancedRecord.pawns.filter (fun p => !p.black)).length : Int) = 3 ∧
    (unbalancedRecord.pawns.length : Int) > 2 := by
  refine ⟨?_, by decide, by decide⟩
  rfl

/-- C5 (evaluation at the failing inputs).  Move generation in the wrong
phase does fail, but not with the intended phase-mismatch `RuntimeError`:
formatting its message evaluates `len(self.num_pawns)` — `len` of an `int` —
so Python raises `TypeError` first; and `MakeMove` in the wrong phase fails
its `assert isinstance` with `AssertionError`. -/
theorem c5_phase_mismatch_eval :
    fullState3.P1Moves = .error .typeErrorLenOfInt ∧
    shortState4.P2Moves = .error .typeErrorLenOfInt ∧
    fullState3.MakeMove (.place ⟨5, 5, true⟩) = .error .assertionError ∧
    shortState4.MakeMove (.reloc (⟨0, 0, true⟩, ⟨5, 5, true⟩)) = .error .assertionError :=
  ⟨rfl, rfl, rfl, rfl⟩

/-- C6.  During placement (`|pawns| < num_pawns`) the symmetry enumeration
`each_symm` yields exactly the 12 non-color-swapping transforms — the six
rotations of the state and the six rotations of its reflection — and
`apply_random_symm_ops` ignores the color-inversion draw, applying only the
chosen reflection and rotations. -/
theorem c6_no_color_inversion_in_phase1 (g : Onoro)
    (h : (g.pawns.length : Int) < g.num_pawns) :
    each_symm g =
      [g, g.rotate_60, g.rotate_60.rotate_60, g.rotate_60.rotate_60.rotate_60,
       g.rotate_60.rotate_60.rotate_60.rotate_60,
       g.rotate_60.rotate_60.rotate_60.rotate_60.rotate_60] ++
      [g.refl, g.refl.rotate_60, g.refl.rotate_60.rotate_60,
       g.refl.rotate_60.rotate_60.rotate_60,
       g.refl.rotate_60.rotate_60.rotate_60.rotate_60,
       g.refl.rotate_60.rotate_60.rotate_60.rotate_60.rotate_60] ∧
    ∀ (color_invert reflected : Bool) (orientation : Nat),
      apply_random_symm_ops g color_invert reflected orientation =
        Onoro.rotate_60^[orientation] (if reflected then g.refl else g) := by
  constructor
  · have h6 := rotate_60_six g
    simp only [each_symm, rotYields, if_neg (ne_of_lt h)]
    rw [h6]
  · intro ci rf k
    simp [apply_random_symm_ops, if_pos h]

/-- Witness for C6 at the 3-pawn starting position. -/
theorem c6_no_color_inversion_in_phase1_witness :
    ((starting_game.pawns.length : Int) < starting_game.num_pawns) ∧
    (each_symm starting_game =
      [starting_game, starting_game.rotate_60, starting_game.rotate_60.rotate_60,
       starting_game.rotate_60.rotate_60.rotate_60,
       starting_game.rotate_60.rotate_60.rotate_60.rotate_60,
       starting_game.rotate_60.rotate_60.rotate_60.rotate_60.rotate_60] ++
      [starting_game.refl, starting_game.refl.rotate_60,
       starting_game.refl.rotate_60.rotate_60,
       starting_game.refl.rotate_60.rotate_60.rotate_60,
       starting_game.refl.rotate_60.rotate_60.rotate_60.rotate_60,
       starting_game.refl.rotate_60.rotate_60.rotate_60.rotate_60.rotate_60] ∧
     ∀ (color_invert reflected : Bool) (orientation : Nat),
      apply_random_symm_ops starting_game color_invert reflected orientation =
        Onoro.rotate_60^[orientation] (if reflected then starting_game.refl else starting_game)) :=
  ⟨by decide, c6_no_color_inversion_in_phase1 starting_game (by decide)⟩

/-- C7.  Move generation, with every read and write of `self` threaded
through an explicit state, leaves the state unchanged (the source performs no
writes), and re-enumerating from the returned state reproduces the same move
sequence. -/
theorem c7_move_generation_pure (g : Onoro) :
    (g.P1MovesS).2 = g ∧ (g.P2MovesS).2 = g ∧
    (Onoro.P1MovesS ((g.P1MovesS).2)).1 = (g.P1MovesS).1 ∧
    (Onoro.P2MovesS ((g.P2MovesS).2)).1 = (g.P2MovesS).1 := by
  have h1 : (g.P1MovesS).2 = g := by
    rw [Onoro.P1MovesS]
    split <;> rfl
  have h2 : (g.P2MovesS).2 = g := by
    rw [Onoro.P2MovesS]
    split <;> rfl
  exact ⟨h1, h2, by rw [h1], by rw [h2]⟩

/-- C8.  On every duplicate-free state: `serialize` raises a validation
error exactly when `|black| - |white| ∉ {0, 1}` or `|pawns| > num_pawns`
(any other failure is the invariant-violation error propagated from win
detection, not a validation error); every record it produces carries
`turn_num = |pawns| - 1` and `finished` freshly recomputed by `HasWinner`
together with the unmodified pawns and turn flag; and the state-threaded run
leaves the state unchanged. -/
theorem c8_serialize_contract (g : Onoro) (hnd : (g.pawns.map Pawn.pos).Nodup) :
    ((∃ e, g.serialize = .error e ∧ e.isValidation = true) ↔
      ¬((((g.pawns.filter (fun p => p.black)).length : Int) -
         ((g.pawns.filter (fun p => !p.black)).length : Int) = 0) ∨
        (((g.pawns.filter (fun p => p.black)).length : Int) -
         ((g.pawns.filter (fun p => !p.black)).length : Int) = 1)) ∨
      (g.pawns.length : Int) > g.num_pawns) ∧
    (∀ r, g.serialize = .ok r →
      r.turn_num = (g.pawns.length : Int) - 1 ∧ g.HasWinner = .ok r.finished ∧
      r.pawns = g.pawns ∧ r.black_turn = g.black_turn) ∧
    (g.serializeS).2 = g := by
  set bl := (g.pawns.filter (fun p => p.black)).length with hbl
  set wh := (g.pawns.filter (fun p => !p.black)).length with hwh
  have hser : g.serialize =
      (if bl < wh then .error .runtimeFewerBlackThanWhite
       else if bl > wh + 1 then .error .runtimeTooManyBlack
       else if (g.pawns.length : Int) > g.num_pawns then .error .runtimeTooManyPawns
       else match g.HasWinner with
            | .error e => .error e
            | .ok w => .ok ⟨g.pawns, g.black_turn, (g.pawns.length : Int) - 1, w⟩) := by
    rw [Onoro.serialize]
  refine ⟨?_, ?_, rfl⟩
  · rw [hser]
    by_cases hc1 : bl < wh
    · rw [if_pos hc1]
      constructor
      · intro _; left; omega
      · intro _; exact ⟨.runtimeFewerBlackThanWhite, rfl, rfl⟩
    · rw [if_neg hc1]
      by_cases hc2 : bl > wh + 1
      · rw [if_pos hc2]
        constructor
        · intro _; left; omega
        · intro _; exact ⟨.runtimeTooManyBlack, rfl, rfl⟩
      · rw [if_neg hc2]
        by_cases hc3 : (g.pawns.length : Int) > g.num_pawns
        · rw [if_pos hc3]
          constructor
          · intro _; right; exact hc3
          · intro _; exact ⟨.runtimeTooManyPawns, rfl, rfl⟩
        · rw [if_neg hc3]
          constructor
          · rintro ⟨e, he, hv⟩
            rcases hw : g.HasWinner with e' | w
            · rw [hw] at he
              simp only [] at he
              injection he with he
              rw [← he] at hv
              -- the only error the scan raises is not a validation error
              have : e' = .runtimeCurrentPlayerWinning := by
                have : ∀ l, Onoro.hasWinnerAux g l = .error e' →
                    e' = .runtimeCurrentPlayerWinning := by
                  intro l
                  induction l with
                  | nil => intro hx; cases hx
                  | cons p t ih =>
                    intro hx
                    rw [Onoro.hasWinnerAux] at hx
                    by_cases hpw : g.pawnWins p
                    · rw [if_pos hpw] at hx
                      by_cases hpb : p.black == g.black_turn
                      · rw [if_pos hpb] at hx
                        injection hx with hx
                        exact hx.symm
                      · rw [if_neg hpb] at hx; cases hx
                    · rw [if_neg hpw] at hx
                      exact ih hx
                exact this g.pawns hw
              rw [this] at hv
              cases hv
            · rw [hw] at he
              simp only [] at he
              cases he
          · rintro (hbal | hcnt)
            · omega
            · exact absurd hcnt hc3
  · intro r hr
    rw [hser] at hr
    by_cases hc1 : bl < wh
    · rw [if_pos hc1] at hr; cases hr
    · rw [if_neg hc1] at hr
      by_cases hc2 : bl > wh + 1
      · rw [if_pos hc2] at hr; cases hr
      · rw [if_neg hc2] at hr
        by_cases hc3 : (g.pawns.length : Int) > g.num_pawns
        · rw [if_pos hc3] at hr; cases hr
        · rw [if_neg hc3] at hr
          rcases hw : g.HasWinner with e | w
          · rw [hw] at hr
            simp only [] at hr
            cases hr
          · rw [hw] at hr
            simp only [] at hr
            injection hr with hr
            rw [← hr]
            exact ⟨rfl, by rfl, rfl, rfl⟩

/-- Witness for C8 at the 3-pawn starting position. -/
theorem c8_serialize_contract_witness :
    ((starting_game.pawns.map Pawn.pos).Nodup) ∧
    (((∃ e, starting_game.serialize = .error e ∧ e.isValidation = true) ↔
      ¬((((starting_game.pawns.filter (fun p => p.black)).length : Int) -
         ((starting_game.pawns.filter (fun p => !p.black)).length : Int) = 0) ∨
        (((starting_game.pawns.filter (fun p => p.black)).length : Int) -
         ((starting_game.pawns.filter (fun p => !p.black)).length : Int) = 1)) ∨
      (starting_game.pawns.length : Int) > starting_game.num_pawns) ∧
    (∀ r, starting_game.serialize = .ok r →
      r.turn_num = (starting_game.pawns.length : Int) - 1 ∧
      starting_game.HasWinner = .ok r.finished ∧
      r.pawns = starting_game.pawns ∧ r.black_turn = starting_game.black_turn) ∧
    (starting_game.serializeS).2 = starting_game) :=
  ⟨by decide, c8_serialize_contract starting_game (by decide)⟩

/-- C9 (amended).  On non-empty duplicate-free states, `__eq__` holds iff
the two states share `num_pawns` and `black_turn` and their pawn multisets
coincide after each is translated by the negation of its own minimum (x, y);
translating every pawn by any fixed offset yields an equal state; and
rotating, reflecting or color-swapping does not in general (witnessed at the
starting position). -/
theorem c9_eq_translation_invariant (g h : Onoro)
    (hg : g.pawns ≠ []) (hh : h.pawns ≠ [])
    (ndg : (g.pawns.map Pawn.pos).Nodup) (ndh : (h.pawns.map Pawn.pos).Nodup) :
    (Onoro.eq g h = true ↔
      g.num_pawns = h.num_pawns ∧ g.black_turn = h.black_turn ∧
      (g.normPawns : Multiset Pawn) = (h.normPawns : Multiset Pawn)) ∧
    (∀ v : Coord, Onoro.eq g (g.translate v) = true) ∧
    (Onoro.eq starting_game starting_game.rotate_60 = false ∧
     Onoro.eq starting_game starting_game.refl = false ∧
     Onoro.eq starting_game starting_game.invert_colors = false) := by
  refine ⟨eq_iff_norm_multiset g h ndg, ?_, by decide, by decide, by decide⟩
  intro v
  rw [Onoro.eq]
  simp only [Bool.and_eq_true, beq_iff_eq, List.all_eq_true, decide_eq_true_eq]
  have htp : (g.translate v).pawns =
      g.pawns.map (fun p => ⟨p.x + v.1, p.y + v.2, p.black⟩) := rfl
  refine ⟨⟨⟨rfl, rfl⟩, by rw [htp, List.length_map]⟩, ?_⟩
  intro p hp
  rw [htp, minXs_map_add g.pawns v.1 v.2 hg, minYs_map_add g.pawns v.1 v.2 hg]
  have hshape : (⟨p.x - minXs g.pawns + (minXs g.pawns + v.1),
      p.y - minYs g.pawns + (minYs g.pawns + v.2), p.black⟩ : Pawn) =
      (⟨p.x + v.1, p.y + v.2, p.black⟩ : Pawn) := by
    simp only [Pawn.mk.injEq]
    refine ⟨by ring, by ring, trivial⟩
  rw [hshape]
  exact List.mem_map_of_mem _ hp

/-- Witness for C9 at the starting position compared with itself. -/
theorem c9_eq_translation_invariant_witness :
    (starting_game.pawns ≠ [] ∧ (starting_game.pawns.map Pawn.pos).Nodup) ∧
    ((Onoro.eq starting_game starting_game = true ↔
      starting_game.num_pawns = starting_game.num_pawns ∧
      starting_game.black_turn = starting_game.black_turn ∧
      (starting_game.normPawns : Multiset Pawn) = (starting_game.normPawns : Multiset Pawn)) ∧
    (∀ v : Coord, Onoro.eq starting_game (starting_game.translate v) = true) ∧
    (Onoro.eq starting_game starting_game.rotate_60 = false ∧
     Onoro.eq starting_game starting_game.refl = false ∧
     Onoro.eq starting_game starting_game.invert_colors = false)) :=
  ⟨⟨by decide, by decide⟩,
    c9_eq_translation_invariant starting_game starting_game (by decide) (by decide)
      (by decide) (by decide)⟩

/-- Counterexample to C9 as stated: with a duplicated pawn, `__eq__` accepts
two non-empty states of equal size whose normalized pawn multisets differ
(the subset check never sees the multiplicity). -/
theorem c9_counterexample :
    Onoro.eq dupPairA dupPairB = true ∧
    dupPairA.num_pawns = dupPairB.num_pawns ∧
    dupPairA.black_turn = dupPairB.black_turn ∧
    dupPairA.pawns ≠ [] ∧ dupPairB.pawns ≠ [] ∧
    (dupPairA.normPawns : Multiset Pawn) ≠ (dupPairB.normPawns : Multiset Pawn) := by
  refine ⟨by decide, by decide, by decide, by decide, by decide, by decide⟩

/-- C10 (evaluation at the failing input).  `__eq__`-equal states can feed
different tuples to `hash`: with colliding sort keys the stable sort
preserves each state's own pawn order, so the hash is not a congruence for
translation-invariant equality. -/
theorem c10_hash_not_congruent :
    Onoro.eq collideA collideB = true ∧ collideA.hashKey ≠ collideB.hashKey := by
  refine ⟨by decide, by decide⟩
